import Mathlib

/-!
# mpalg: classical MDS (`cmdscale`) and LAMP (`lamp`)

A shallow embedding of `src/mds.cpp` and `src/lamp.cpp`.

* A `cv::Mat` is a shape together with its entries.  Entries live in an ordered
  field `K` (exact arithmetic); the element type tag of a `cv::Mat` is not modelled.
* The linear-algebra backend (`cv::sqrt`, `cv::eigen`, `cv::SVD`) is not part of the
  repository and is a parameter (`Backend`).  The shapes of what it returns are those
  OpenCV documents.
* Container sizes are natural numbers; the conversions between `size_t` and `int`
  in the source are value preserving on sizes below `2^31`, the domain of the model.
* `fprintf(stderr, ...)` appends a diagnostic to a log; an out-of-range index or a
  failed assertion of `Mat::rowRange` or `Mat::diag` is an error result.
-/

set_option linter.unusedSectionVars false

namespace MPAlg

/-! ## Matrices -/

/-- Dense matrix value: the shape and the entries of a `cv::Mat`. -/
structure Mat (K : Type) where
  rows : Nat
  cols : Nat
  data : Fin rows → Fin cols → K

namespace Mat

variable {K : Type}

/-- Entry `(i, j)`; reads outside the shape give `0` (the code never performs one). -/
def get [Zero K] (M : Mat K) (i j : Nat) : K :=
  if h : i < M.rows ∧ j < M.cols then M.data ⟨i, h.1⟩ ⟨j, h.2⟩ else 0

/-- Matrix of a given shape with entries `f i j`. -/
def ofFn (r c : Nat) (f : Nat → Nat → K) : Mat K :=
  ⟨r, c, fun i j => f i.val j.val⟩

/-- Matrix literal: the rows of a C array with `c` columns. -/
def ofRows [Zero K] (c : Nat) (l : List (List K)) : Mat K :=
  ofFn l.length c (fun i j => (l.getD i []).getD j 0)

/-- Models `Mat::zeros(r, c, type)`. -/
def zeros [Zero K] (r c : Nat) : Mat K := ofFn r c (fun _ _ => 0)

/-- Models `Mat::ones(r, c, type)`. -/
def ones [One K] (r c : Nat) : Mat K := ofFn r c (fun _ _ => 1)

/-- Models `Mat::eye(r, c, type)`. -/
def eye [Zero K] [One K] (r c : Nat) : Mat K := ofFn r c (fun i j => if i = j then 1 else 0)

/-- Models `M.row(i)`: the 1 x cols matrix holding row `i`. -/
def row [Zero K] (M : Mat K) (i : Nat) : Mat K := ofFn 1 M.cols (fun _ j => M.get i j)

/-- Models `M.col(k)`: the rows x 1 matrix holding column `k`. -/
def col [Zero K] (M : Mat K) (k : Nat) : Mat K := ofFn M.rows 1 (fun i _ => M.get i k)

/-- Models `M.t()`. -/
def t [Zero K] (M : Mat K) : Mat K := ofFn M.cols M.rows (fun i j => M.get j i)

/-- Models `M.rowRange(s, e)`, for `s ≤ e ≤ rows`: rows `s .. e - 1` of `M`.  For an empty
range (`s = e`) the range constructor of `cv::Mat` gives the empty `0 x 0` matrix. -/
def rowRange [Zero K] (M : Mat K) (s e : Nat) : Mat K :=
  ofFn (e - s) (if s < e then M.cols else 0) (fun i j => M.get (s + i) j)

/-- Models `Mat::diag(d)` for a column vector `d`: the square matrix with `d` on its diagonal.
The assertion `d.cols == 1 || d.rows == 1` that `Mat::diag` makes first is tested where it is
called. -/
def diag [Zero K] (d : Mat K) : Mat K :=
  ofFn d.rows d.rows (fun i j => if i = j then d.get i 0 else 0)

/-- Models `cv::flip(M, M, 1)`: reverses the order of the columns. -/
def flipCols [Zero K] (M : Mat K) : Mat K :=
  ofFn M.rows M.cols (fun i j => M.get i (M.cols - 1 - j))

/-- Entrywise application of a scalar function (`cv::sqrt`, `cv::abs`, `cv::pow`). -/
def map [Zero K] (f : K → K) (M : Mat K) : Mat K :=
  ofFn M.rows M.cols (fun i j => f (M.get i j))

/-- Models `A + B` on matrices of one shape. -/
def add [Zero K] [Add K] (A B : Mat K) : Mat K :=
  ofFn A.rows A.cols (fun i j => A.get i j + B.get i j)

/-- Models `A - B` on matrices of one shape. -/
def sub [Zero K] [Sub K] (A B : Mat K) : Mat K :=
  ofFn A.rows A.cols (fun i j => A.get i j - B.get i j)

/-- Models `A.mul(B)`: the entrywise product of matrices of one shape. -/
def mulElem [Zero K] [Mul K] (A B : Mat K) : Mat K :=
  ofFn A.rows A.cols (fun i j => A.get i j * B.get i j)

/-- Models `A * s` for a scalar `s`. -/
def scale [Zero K] [Mul K] (A : Mat K) (s : K) : Mat K :=
  ofFn A.rows A.cols (fun i j => A.get i j * s)

/-- Models `A * B`, the matrix product (inner dimension `A.cols = B.rows`). -/
def mul [Semiring K] (A B : Mat K) : Mat K :=
  ofFn A.rows B.cols (fun i j => ∑ l in Finset.range A.cols, A.get i l * B.get l j)

/-- Models `cv::reduce(T, out, 0, CV_REDUCE_SUM)`: the 1 x cols matrix of column sums. -/
def reduceSum0 [AddCommMonoid K] (T : Mat K) : Mat K :=
  ofFn 1 T.cols (fun _ j => ∑ i in Finset.range T.rows, T.get i j)

/-- Models `cv::sum(M)[0]`: the sum of all entries. -/
def sum [AddCommMonoid K] (M : Mat K) : K :=
  ∑ i in Finset.range M.rows, ∑ j in Finset.range M.cols, M.get i j

/-- Models `R.copyTo(M.row(i))` and `M.row(i) = R`: overwrites row `i` of `M` in place. -/
def setRow [Zero K] (M : Mat K) (i : Nat) (R : Mat K) : Mat K :=
  ofFn M.rows M.cols (fun a b => if a = i then R.get 0 b else M.get a b)

/-- Models `M.col(k) = C`: overwrites column `k` of `M` in place. -/
def setCol [Zero K] (M : Mat K) (k : Nat) (C : Mat K) : Mat K :=
  ofFn M.rows M.cols (fun a b => if b = k then C.get a 0 else M.get a b)

/-- Models `M.at(i, j) = v`. -/
def setAt [Zero K] (M : Mat K) (i j : Nat) (v : K) : Mat K :=
  ofFn M.rows M.cols (fun a b => if a = i ∧ b = j then v else M.get a b)

/-- Models `A != B`: the 8-bit mask with 255 where the entries differ and 0 elsewhere. -/
def cmpNe [Zero K] [DecidableEq K] (A B : Mat K) : Mat Nat :=
  ofFn A.rows A.cols (fun i j => if A.get i j ≠ B.get i j then 255 else 0)

end Mat

/-- A counted `for (int i = 0; i < n; ++i)` loop threading a state. -/
def forLoop {σ : Type} (n : Nat) (body : Nat → σ → σ) (init : σ) : σ :=
  (List.range n).foldl (fun s i => body i s) init

/-! ## Diagnostics, errors, backend -/

/-- The messages written to `stderr`, one constructor per `fprintf`, named after the
error kind each stands for. -/
inductive Diag where
  /-- Message "Input matrix too small to execute the projection" -/
  | lampTooFewSamples
  /-- Message "To few control points. Must have at least 2." -/
  | lampTooFewControlPoints
  /-- Message "Number of control points and number of control point projections is different." -/
  | lampControlCountMismatch
  /-- Message "Projections have more dimensions than original data." -/
  | lampDimensionMismatch
  /-- Message "ERROR: lamp - Invalid input." -/
  | lampInvalidInput
  /-- Message "Matrix is not square" -/
  | mdsNotSquare
  /-- Message "Too few samples provided. Must have 3 or more samples." -/
  | mdsTooFewSamples
  /-- Message "Matrix is not symmetric." -/
  | mdsNotSymmetric
  /-- Message "ERROR: cmdscale - Invalid input." -/
  | mdsInvalidInput
  deriving DecidableEq, Repr

/-- Abnormal termination: an index outside a container, a failed range assertion of
`Mat::rowRange`, or the failed assertion `d.cols == 1 || d.rows == 1` of `Mat::diag`. -/
inductive CvError where
  | indexOutOfRange
  | rangeAssertion
  | diagAssertion
  deriving DecidableEq, Repr

/-- The numeric backend: scalar square root, symmetric eigendecomposition
(eigenvalues as a column, eigenvectors as rows) and singular value decomposition
(`u`, `vt`). -/
structure Backend (K : Type) where
  sqrt : K → K
  eigen : Mat K → Mat K × Mat K
  svd : Mat K → Mat K × Mat K

section Code

variable {K : Type} [LinearOrderedField K]

/-- Gives a backend result the shape OpenCV documents for it. -/
def Mat.reshape (r c : Nat) (M : Mat K) : Mat K := Mat.ofFn r c (fun i j => M.get i j)

/-- Models `cv::eigen(B, evals, evecs)`: `evals` is rows x 1, `evecs` is rows x rows with the
eigenvectors as rows, in the order of the eigenvalues. -/
def cvEigen (be : Backend K) (B : Mat K) : Mat K × Mat K :=
  (Mat.reshape B.rows 1 (be.eigen B).1, Mat.reshape B.rows B.rows (be.eigen B).2)

/-- Models `cv::SVD udv(A)`: `udv.u` is rows x min(rows, cols), `udv.vt` is min(rows, cols) x cols. -/
def cvSVD (be : Backend K) (A : Mat K) : Mat K × Mat K :=
  (Mat.reshape A.rows (min A.rows A.cols) (be.svd A).1,
   Mat.reshape (min A.rows A.cols) A.cols (be.svd A).2)

/-- Models `cv::norm(a, b)`: the L2 norm of `a - b`. -/
def cvNorm (be : Backend K) (a b : Mat K) : K :=
  be.sqrt (∑ i in Finset.range a.rows, ∑ j in Finset.range a.cols,
    (a.get i j - b.get i j) * (a.get i j - b.get i j))

/-! ## lamp.cpp -/

/-- Models `s_CheckInputErrorsLAMP`: the returned flag and what was written to `stderr`. -/
def s_CheckInputErrorsLAMP (X : Mat K) (cp_index : List Int) (Ys : Mat K) :
    Bool × List Diag :=
  if X.rows < 3 then (false, [Diag.lampTooFewSamples])
  else if cp_index.length ≤ 1 then (false, [Diag.lampTooFewControlPoints])
  else if Ys.rows ≠ cp_index.length then (false, [Diag.lampControlCountMismatch])
  else if X.cols < Ys.cols then (false, [Diag.lampDimensionMismatch])
  else (true, [])

/-- The result of `lamp`: the returned matrix, what was written to `stderr`, and the
matrix printed on `stdout` before returning. -/
structure LampOut (K : Type) where
  ret : Mat K
  log : List Diag
  printed : List (Mat K)

/-- Models `double tol = 1E-003`. -/
def tol : K := 1 / 1000

/-- Lines 67-68: `for (i < cp_index.size()) proj_idx[cp_index[i]] = -1`, a write outside
the vector being an error. -/
def markControl : List Int → List Int → Except CvError (List Int)
  | proj_idx, [] => .ok proj_idx
  | proj_idx, c :: cs =>
    if 0 ≤ c ∧ c < (proj_idx.length : Int) then markControl (proj_idx.set c.toNat (-1)) cs
    else .error CvError.indexOutOfRange

/-- Lines 73-76, from position `i` on: `X.row(cp_index[i]).copyTo(Xs.row(i))` and
`Ys.row(i).copyTo(Y.row(cp_index[i]))`; the state is `(Xs, Y)`. -/
def copyControl (X Ys : Mat K) : Nat → List Int → Mat K × Mat K → Except CvError (Mat K × Mat K)
  | _, [], st => .ok st
  | i, c :: cs, st =>
    if 0 ≤ c ∧ c < (X.rows : Int) ∧ c < (st.2.rows : Int) then
      copyControl X Ys (i + 1) cs (st.1.setRow i (X.row c.toNat), st.2.setRow c.toNat (Ys.row i))
    else .error CvError.indexOutOfRange

/-- Lines 84-86: the weight buffer after `alpha.at<float>(0, j) = 1 / max(norm(Xs.row(j), x), tol)`
for every `j < cp_index.size()`; `x` is the row of the point being projected. -/
def lampAlpha (be : Backend K) (Xs : Mat K) (cpn : Nat) (x : Mat K) (alpha : Mat K) : Mat K :=
  forLoop cpn (fun j a => a.setAt 0 j (1 / max (cvNorm be (Xs.row j) x) tol)) alpha

/-- Lines 90-92 and 99-101: `T = zeros(S.rows, S.cols)` and `T.col(k) = S.col(k).mul(alpha.t())`
for every column `k`. -/
def lampScaled (S alpha : Mat K) : Mat K :=
  forLoop S.cols (fun k T => T.setCol k ((S.col k).mulElem alpha.t)) (Mat.zeros S.rows S.cols)

/-- Lines 88, 95-97 and 103-105: `reduce(T, til, 0, CV_REDUCE_SUM)` and
`til = til * (1 / sum_alpha)` with `sum_alpha = cv::sum(alpha)[0]`. -/
def lampTilde (S alpha : Mat K) : Mat K :=
  (lampScaled S alpha).reduceSum0.scale (1 / alpha.sum)

/-- Lines 108-110 and 112-114: `hat = zeros(S.rows, S.cols)` and `hat.row(k) = S.row(k) - til`
for every row `k`. -/
def lampHat (S til : Mat K) : Mat K :=
  forLoop S.rows (fun k H => H.setRow k ((S.row k).sub til)) (Mat.zeros S.rows S.cols)

/-- Lines 118-130: `sqrt_alpha = sqrt(alpha).t()`, a copy of `hat`, and
`A.col(k) = A.col(k).mul(sqrt_alpha)` for every column `k`. -/
def lampWeighted (be : Backend K) (hat alpha : Mat K) : Mat K :=
  forLoop hat.cols (fun k A => A.setCol k ((A.col k).mulElem (alpha.map be.sqrt).t)) hat

/-- Lines 132-135: `cv::SVD udv(A.t() * B)` and `M = udv.u * udv.vt`. -/
def lampM (be : Backend K) (A B : Mat K) : Mat K :=
  (cvSVD be (A.t.mul B)).1.mul (cvSVD be (A.t.mul B)).2

/-- Lines 84-138 for one point with row `x`, entered with the weight buffer `alpha`:
the buffer it leaves behind and the row it stores into `Y`. -/
def lampPoint (be : Backend K) (Xs Ys : Mat K) (cpn : Nat) (x : Mat K) (alpha : Mat K) :
    Mat K × Mat K :=
  let alpha := lampAlpha be Xs cpn x alpha
  let Xtil := lampTilde Xs alpha
  let Ytil := lampTilde Ys alpha
  let Xhat := lampHat Xs Xtil
  let Yhat := lampHat Ys Ytil
  let A := lampWeighted be Xhat alpha
  let B := lampWeighted be Yhat alpha
  let M := lampM be A B
  (alpha, (((x.sub Xtil).mul M).add Ytil))

/-- One iteration of the loop of lines 79-139 on the state `(alpha, Y)`. -/
def lampStep (be : Backend K) (X Xs Ys : Mat K) (cpn : Nat) (proj_idx : List Int) (i : Nat)
    (st : Mat K × Mat K) : Mat K × Mat K :=
  if proj_idx.getD i 0 = -1 then st
  else
    (( lampPoint be Xs Ys cpn (X.row (proj_idx.getD i 0).toNat) st.1).1,
      st.2.setRow (proj_idx.getD i 0).toNat
        (lampPoint be Xs Ys cpn (X.row (proj_idx.getD i 0).toNat) st.1).2)

/-- Models `lamp(X, cp_index, Ys)`. -/
def lamp (be : Backend K) (X : Mat K) (cp_index : List Int) (Ys : Mat K) :
    Except CvError (LampOut K) :=
  if (s_CheckInputErrorsLAMP X cp_index Ys).1 = false then
    .ok ⟨Mat.zeros 1 1, (s_CheckInputErrorsLAMP X cp_index Ys).2 ++ [Diag.lampInvalidInput], []⟩
  else
    match markControl ((List.range X.rows).map Int.ofNat) cp_index with
    | .error e => .error e
    | .ok proj_idx =>
      match copyControl X Ys 0 cp_index
          (Mat.zeros cp_index.length X.cols, Mat.zeros X.rows Ys.cols) with
      | .error e => .error e
      | .ok st0 =>
        let st := forLoop X.rows (lampStep be X st0.1 Ys cp_index.length proj_idx)
          (Mat.zeros 1 cp_index.length, st0.2)
        .ok ⟨st.2, [], [st.2]⟩

/-! ## mds.cpp -/

/-- Models `s_CheckInpuErrorsMDS`: the returned flag and what was written to `stderr`. -/
def s_CheckInpuErrorsMDS (dist : Mat K) : Bool × List Diag :=
  if dist.rows ≠ dist.cols then (false, [Diag.mdsNotSquare])
  else if dist.rows < 3 then (false, [Diag.mdsTooFewSamples])
  else if (Mat.cmpNe dist dist.t).sum ≠ 0 then (false, [Diag.mdsNotSymmetric])
  else (true, [])

/-- The `Mat` objects reachable through a `Mat*`: an address is a position in `objs`. -/
structure Heap (K : Type) where
  objs : List (Mat K)

/-- Models `new Mat(m)`: a fresh object holding a copy of `m`, and its address. -/
def Heap.alloc (h : Heap K) (m : Mat K) : Heap K × Nat :=
  (⟨h.objs ++ [m]⟩, h.objs.length)

/-- The result of `cmdscale`: the returned matrix, what was written to `stderr`, and the
objects in memory after the call. -/
structure CmdscaleOut (K : Type) where
  ret : Mat K
  log : List Diag
  heap : Heap K

/-- Lines 44-46: `pow(dist, 2, pow_dist)`, `centering = eye - ones * (1.f / dist.cols)` and
`B = centering * pow_dist * centering * 0.5f`. -/
def cmdscaleB (dist : Mat K) : Mat K :=
  (((((Mat.eye dist.cols dist.cols).sub
      ((Mat.ones dist.cols dist.cols).scale (1 / (dist.cols : K)))).mul
    (dist.map (fun x => x * x))).mul
    ((Mat.eye dist.cols dist.cols).sub
      ((Mat.ones dist.cols dist.cols).scale (1 / (dist.cols : K))))).scale (1 / 2))

/-- Lines 52-53 and 55-56: `if (p != NULL) p = new Mat(m);` for a pointer parameter `p`
(`none` is `NULL`): the memory afterwards and the new value of the local variable `p`. -/
def rebindIfRequested (heap : Heap K) (p : Option Nat) (m : Mat K) : Heap K × Option Nat :=
  match p with
  | none => (heap, none)
  | some _ => ((heap.alloc m).1, some (heap.alloc m).2)

/-- Models `cmdscale(dist, k, eigenvals, eigenvecs)`.  The pointer arguments are `none` for `NULL`
and the address of an object of the caller in `heap` otherwise; they are passed by value, so
the assignments of lines 53 and 56 rebind the local copies to fresh objects.  Line 58 first
takes the row range (range assertion), then calls `Mat::diag` (its assertion fails on the
empty matrix that `k = 0` selects). -/
def cmdscale (be : Backend K) (dist : Mat K) (k : Int) (heap : Heap K)
    (eigenvals eigenvecs : Option Nat) : Except CvError (CmdscaleOut K) :=
  if (s_CheckInpuErrorsMDS dist).1 = false then
    .ok ⟨Mat.zeros 1 1, (s_CheckInpuErrorsMDS dist).2 ++ [Diag.mdsInvalidInput], heap⟩
  else
    let evals := (cvEigen be (cmdscaleB dist)).1
    let evecs := (cvEigen be (cmdscaleB dist)).2
    let heap1 := (rebindIfRequested heap eigenvals evals).1
    let heap2 := (rebindIfRequested heap1 eigenvecs evecs).1
    if 0 ≤ (evals.rows : Int) - k ∧ (evals.rows : Int) - k ≤ (evals.rows : Int) then
      if (evals.rowRange ((evals.rows : Int) - k).toNat evals.rows).cols = 1 ∨
          (evals.rowRange ((evals.rows : Int) - k).toNat evals.rows).rows = 1 then
        let sqrt_evals :=
          (((evals.rowRange ((evals.rows : Int) - k).toNat evals.rows).diag).map abs).map be.sqrt
        if 0 ≤ (evecs.rows : Int) - k ∧ (evecs.rows : Int) - k ≤ (evecs.rows : Int) then
          let mds_points :=
            ((evecs.rowRange ((evecs.rows : Int) - k).toNat evecs.rows).t).mul sqrt_evals
          .ok ⟨mds_points.flipCols, [], heap2⟩
        else .error CvError.rangeAssertion
      else .error CvError.diagAssertion
    else .error CvError.rangeAssertion

end Code

/-! ## Concrete inputs -/

section Examples
/-- The points of `test_lamp`. -/
def testX (K : Type) [LinearOrderedField K] : Mat K :=
  Mat.ofRows 3 [[1, 2, 3], [3, 2, 1], [4, 5, 6], [2, 3, 4], [4, 3, 2], [6, 8, 9], [2, 4, 6],
    [1, 9, 5], [1, 3, 9], [9, 8, 7]]

/-- The control projections of `test_lamp`. -/
def testYs (K : Type) [LinearOrderedField K] : Mat K :=
  Mat.ofRows 2 [[4, 9], [1, 1], [9, 6]]

/-- A backend over the rationals for running examples: the integer square root of numerator
and denominator, and fixed decompositions. -/
def exampleBackend : Backend ℚ :=
  ⟨fun q => (Nat.sqrt q.num.natAbs : ℚ) / (Nat.sqrt q.den : ℚ),
    fun B => (Mat.zeros B.rows 1, Mat.eye B.rows B.rows),
    fun A => (Mat.eye A.rows A.cols, Mat.eye A.cols A.cols)⟩
/-- The distance matrix of `test_cmdscale`. -/
def testDist (K : Type) [LinearOrderedField K] : Mat K :=
  Mat.ofRows 4 [[0, 93, 82, 133], [93, 0, 52, 60], [82, 52, 0, 111], [133, 60, 111, 0]]

/-- A default-constructed `cv::Mat`: no rows, no columns. -/
def emptyMat (K : Type) : Mat K := ⟨0, 0, fun i _ => i.elim0⟩

/-- The pairwise distances of the corners `(3/2, 2)`, `(3/2, -2)`, `(-3/2, 2)`, `(-3/2, -2)`
of a 3 x 4 rectangle. -/
def rectDist (K : Type) [LinearOrderedField K] : Mat K :=
  Mat.ofRows 4 [[0, 4, 3, 5], [4, 0, 5, 3], [3, 5, 0, 4], [5, 3, 4, 0]]

/-- The corners of the rectangle, one per row. -/
def rectPts (K : Type) [LinearOrderedField K] : Mat K :=
  Mat.ofRows 2 [[3 / 2, 2], [3 / 2, -2], [-3 / 2, 2], [-3 / 2, -2]]

/-- The matrix `cmdscaleB (rectDist K)`, entry by entry. -/
def rectB (K : Type) [LinearOrderedField K] : Mat K :=
  Mat.ofRows 4 [[-25 / 4, 7 / 4, -7 / 4, 25 / 4], [7 / 4, -25 / 4, 25 / 4, -7 / 4],
    [-7 / 4, 25 / 4, -25 / 4, 7 / 4], [25 / 4, -7 / 4, 7 / 4, -25 / 4]]

/-- The eigenvalues of `rectB`, stored in descending order. -/
def rectEvalsDesc (K : Type) [LinearOrderedField K] : Mat K :=
  Mat.ofRows 1 [[0], [0], [-9], [-16]]

/-- Orthonormal eigenvectors of `rectB` as rows, in the order of `rectEvalsDesc`. -/
def rectEvecsDesc (K : Type) [LinearOrderedField K] : Mat K :=
  Mat.ofRows 4 [[1 / 2, 1 / 2, 1 / 2, 1 / 2], [1 / 2, -1 / 2, -1 / 2, 1 / 2],
    [1 / 2, 1 / 2, -1 / 2, -1 / 2], [1 / 2, -1 / 2, 1 / 2, -1 / 2]]

/-- The eigenvalues of `rectB`, stored in ascending order. -/
def rectEvalsAsc (K : Type) [LinearOrderedField K] : Mat K :=
  Mat.ofRows 1 [[-16], [-9], [0], [0]]

/-- Orthonormal eigenvectors of `rectB` as rows, in the order of `rectEvalsAsc`. -/
def rectEvecsAsc (K : Type) [LinearOrderedField K] : Mat K :=
  Mat.ofRows 4 [[1 / 2, -1 / 2, 1 / 2, -1 / 2], [1 / 2, 1 / 2, -1 / 2, -1 / 2],
    [1 / 2, -1 / 2, -1 / 2, 1 / 2], [1 / 2, 1 / 2, 1 / 2, 1 / 2]]

/-- A backend with a given square root whose eigensolver answers with a fixed decomposition. -/
def tableBackend {K : Type} (sq : K → K) (evals evecs : Mat K) : Backend K :=
  ⟨sq, fun _ => (evals, evecs), fun A => (A, A)⟩

end Examples

/-! ## Vocabulary of the statements -/

section Vocabulary

variable {K : Type} [LinearOrderedField K]

/-- An exact symmetric eigendecomposition of the `n x n` matrix `B`: the rows of `evecs` are
orthonormal, and row `a` is an eigenvector of `B` for the eigenvalue `evals[a]`. -/
def ExactEigen (B evals evecs : Mat K) : Prop :=
  (∀ a b, a < B.rows → b < B.rows →
    ∑ l in Finset.range B.rows, evecs.get a l * evecs.get b l = if a = b then 1 else 0) ∧
  (∀ a i, a < B.rows → i < B.rows →
    ∑ l in Finset.range B.rows, B.get i l * evecs.get a l = evals.get a 0 * evecs.get a i)

/-- The eigenvalues are stored in ascending order. -/
def Ascending (evals : Mat K) : Prop :=
  ∀ a b, a ≤ b → b < evals.rows → evals.get a 0 ≤ evals.get b 0

/-- The eigenvalues are stored in descending order, the order `cv::eigen` documents. -/
def Descending (evals : Mat K) : Prop :=
  ∀ a b, a ≤ b → b < evals.rows → evals.get b 0 ≤ evals.get a 0

/-- The eigenpairs placed in the output (rows `n - k .. n - 1`, output column `c` holding row
`n - 1 - c`) are the `k` with the largest eigenvalues, in descending order of eigenvalue from
the first column on. -/
def SelectsLargest (evals : Mat K) (k : Nat) : Prop :=
  (∀ a c, a < evals.rows - k → c < k → evals.get a 0 ≤ evals.get (evals.rows - 1 - c) 0) ∧
  (∀ c c', c ≤ c' → c' < k →
    evals.get (evals.rows - 1 - c') 0 ≤ evals.get (evals.rows - 1 - c) 0)

/-- The eigenpairs placed in the output are the `k` with the smallest eigenvalues, in
ascending order of eigenvalue from the first column on. -/
def SelectsSmallest (evals : Mat K) (k : Nat) : Prop :=
  (∀ a c, a < evals.rows - k → c < k → evals.get (evals.rows - 1 - c) 0 ≤ evals.get a 0) ∧
  (∀ c c', c ≤ c' → c' < k →
    evals.get (evals.rows - 1 - c) 0 ≤ evals.get (evals.rows - 1 - c') 0)

/-- Coordinate `c` of point `i` after subtracting the mean of the `n` points `p`. -/
def centred (n : Nat) (p : Nat → Nat → K) (i c : Nat) : K :=
  p i c - 1 / (n : K) * ∑ a in Finset.range n, p a c

end Vocabulary

/-! ## The values of one iteration of the per-point loop -/

section PerPoint

variable {K : Type} [LinearOrderedField K]

/-- The matrix `Xs` left by the copy loop when every control index is in range: row `q` is
row `cp_index[q]` of `X`. -/
def controlRows (X : Mat K) (cp_index : List Int) : Mat K :=
  Mat.ofFn cp_index.length X.cols (fun q l => X.get (cp_index.getD q 0).toNat l)

/-- The weights `alpha` computed for the point with row `x`. -/
def pointAlpha (be : Backend K) (Xs : Mat K) (cpn : Nat) (x : Mat K) : Mat K :=
  lampAlpha be Xs cpn x (Mat.zeros 1 cpn)

end PerPoint

/-! ## Vocabulary of the statements about the local map -/

section SvdVocabulary

variable {K : Type} [LinearOrderedField K]

end SvdVocabulary

/-! ## Concrete inputs for the local map -/

section ProcrustesExamples

/-- Three points of the plane: `(1, 0)`, `(-1, 0)` and the origin. -/
def procX (K : Type) [LinearOrderedField K] : Mat K :=
  Mat.ofRows 2 [[1, 0], [-1, 0], [0, 0]]

/-- The first two points are the control points. -/
def procIdx : List Int := [0, 1]

end ProcrustesExamples

end MPAlg

namespace MPAlg

/-! ## Basic facts about matrices and loops -/

namespace Mat

variable {K : Type}

@[simp] theorem ofFn_rows (r c : Nat) (f : Nat → Nat → K) : (ofFn r c f).rows = r := rfl

@[simp] theorem ofFn_cols (r c : Nat) (f : Nat → Nat → K) : (ofFn r c f).cols = c := rfl

@[simp] theorem get_ofFn [Zero K] (r c : Nat) (f : Nat → Nat → K) (i j : Nat) :
    (ofFn r c f).get i j = if i < r ∧ j < c then f i j else 0 := by
  unfold get ofFn
  by_cases h : i < r ∧ j < c
  · simp [h]
  · simp only [h]; simp

theorem get_eq_zero [Zero K] (M : Mat K) (i j : Nat) (h : ¬ (i < M.rows ∧ j < M.cols)) :
    M.get i j = 0 := by
  unfold get
  simp only [h]; simp

theorem ext_get [Zero K] {A B : Mat K} (hr : A.rows = B.rows) (hc : A.cols = B.cols)
    (h : ∀ i j, i < A.rows → j < A.cols → A.get i j = B.get i j) : A = B := by
  obtain ⟨ra, ca, da⟩ := A
  obtain ⟨rb, cb, db⟩ := B
  simp only at hr hc
  subst hr hc
  congr
  funext i j
  have := h i.val j.val i.isLt j.isLt
  simpa [get, i.isLt, j.isLt] using this

end Mat

theorem forLoop_zero {σ : Type} (body : Nat → σ → σ) (init : σ) : forLoop 0 body init = init := rfl

theorem forLoop_succ {σ : Type} (n : Nat) (body : Nat → σ → σ) (init : σ) :
    forLoop (n + 1) body init = body n (forLoop n body init) := by
  simp [forLoop, List.range_succ]

/-! ## Validation -/

section Shapes

variable {K : Type}

/-- C2. `s_CheckInputErrorsLAMP` rejects exactly when rows(X) < 3, or |cp_index| < 2, or
rows(Ys) ≠ |cp_index|, or cols(X) < cols(Ys), and the diagnostic it writes is the one of the
first of these conditions that holds, in this order (too few samples, too few control points,
control count mismatch, dimension mismatch); an accepted input writes nothing. -/
theorem lamp_validation_rejects_iff (X : Mat K) (cp_index : List Int) (Ys : Mat K) :
    ((s_CheckInputErrorsLAMP X cp_index Ys).1 = false ↔
      (X.rows < 3 ∨ cp_index.length < 2 ∨ Ys.rows ≠ cp_index.length ∨ X.cols < Ys.cols)) ∧
    (X.rows < 3 → (s_CheckInputErrorsLAMP X cp_index Ys).2 = [Diag.lampTooFewSamples]) ∧
    (¬ X.rows < 3 → cp_index.length < 2 →
      (s_CheckInputErrorsLAMP X cp_index Ys).2 = [Diag.lampTooFewControlPoints]) ∧
    (¬ X.rows < 3 → ¬ cp_index.length < 2 → Ys.rows ≠ cp_index.length →
      (s_CheckInputErrorsLAMP X cp_index Ys).2 = [Diag.lampControlCountMismatch]) ∧
    (¬ X.rows < 3 → ¬ cp_index.length < 2 → ¬ Ys.rows ≠ cp_index.length → X.cols < Ys.cols →
      (s_CheckInputErrorsLAMP X cp_index Ys).2 = [Diag.lampDimensionMismatch]) ∧
    ((s_CheckInputErrorsLAMP X cp_index Ys).1 = true →
      (s_CheckInputErrorsLAMP X cp_index Ys).2 = []) := by
  unfold s_CheckInputErrorsLAMP
  by_cases h1 : X.rows < 3
  · simp [h1]
  · by_cases h2 : cp_index.length ≤ 1
    · have h2' : cp_index.length < 2 := by omega
      simp [h1, h2, h2']
    · have h2' : ¬ cp_index.length < 2 := by omega
      by_cases h3 : Ys.rows = cp_index.length
      · by_cases h4 : X.cols < Ys.cols
        · simp [h1, h2, h2', h3, h4]
        · simp [h1, h2, h2', h3, h4]
      · simp [h1, h2, h2', h3]

end Shapes

section Proofs

variable {K : Type} [LinearOrderedField K]

theorem cmpNe_sum_eq_zero_iff (A B : Mat K) :
    (Mat.cmpNe A B).sum = 0 ↔ ∀ i j, i < A.rows → j < A.cols → A.get i j = B.get i j := by
  unfold Mat.sum
  simp only [Finset.sum_eq_zero_iff, Finset.mem_range, Mat.cmpNe, Mat.ofFn_rows, Mat.ofFn_cols,
    Mat.get_ofFn]
  constructor
  · intro h i j hi hj
    have := h i hi j hj
    simp only [hi, hj, and_self, if_true] at this
    by_contra hne
    simp [hne] at this
  · intro h i hi j hj
    simp [hi, hj, h i j hi hj]

theorem cmpNe_t_sum_ne_zero_iff (dist : Mat K) (hsq : dist.rows = dist.cols) :
    (Mat.cmpNe dist dist.t).sum ≠ 0 ↔
      ∃ i j, i < dist.rows ∧ j < dist.cols ∧ dist.get i j ≠ dist.get j i := by
  have ht : ∀ i j, i < dist.rows → j < dist.cols → dist.t.get i j = dist.get j i := by
    intro i j hi hj
    have h : i < dist.cols ∧ j < dist.rows := ⟨by omega, by omega⟩
    simp [Mat.t, h]
  rw [Ne, cmpNe_sum_eq_zero_iff]
  constructor
  · intro h
    by_contra hc
    apply h
    intro i j hi hj
    by_contra hne
    exact hc ⟨i, j, hi, hj, fun heq => hne (by rw [ht i j hi hj]; exact heq)⟩
  · rintro ⟨i, j, hi, hj, hne⟩ h
    exact hne (by rw [← ht i j hi hj]; exact h i j hi hj)

/-- C3. `s_CheckInpuErrorsMDS` rejects exactly when rows ≠ cols, or rows < 3, or some entry
differs from its transposed counterpart (exact equality), and the diagnostic it writes is the
one of the first of these conditions that holds, in this order (not square, too few samples,
not symmetric); an accepted input writes nothing. -/
theorem mds_validation_rejects_iff (dist : Mat K) :
    ((s_CheckInpuErrorsMDS dist).1 = false ↔
      (dist.rows ≠ dist.cols ∨ dist.rows < 3 ∨
        ∃ i j, i < dist.rows ∧ j < dist.cols ∧ dist.get i j ≠ dist.get j i)) ∧
    (dist.rows ≠ dist.cols → (s_CheckInpuErrorsMDS dist).2 = [Diag.mdsNotSquare]) ∧
    (¬ dist.rows ≠ dist.cols → dist.rows < 3 →
      (s_CheckInpuErrorsMDS dist).2 = [Diag.mdsTooFewSamples]) ∧
    (¬ dist.rows ≠ dist.cols → ¬ dist.rows < 3 →
      (∃ i j, i < dist.rows ∧ j < dist.cols ∧ dist.get i j ≠ dist.get j i) →
      (s_CheckInpuErrorsMDS dist).2 = [Diag.mdsNotSymmetric]) ∧
    ((s_CheckInpuErrorsMDS dist).1 = true → (s_CheckInpuErrorsMDS dist).2 = []) := by
  by_cases h1 : dist.rows = dist.cols
  · by_cases h2 : dist.rows < 3
    · have hval : s_CheckInpuErrorsMDS dist = (false, [Diag.mdsTooFewSamples]) := by
        unfold s_CheckInpuErrorsMDS
        rw [if_neg (not_not.mpr h1), if_pos h2]
      rw [hval]
      refine ⟨⟨fun _ => Or.inr (Or.inl h2), fun _ => rfl⟩, fun h => absurd h1 h, fun _ _ => rfl,
        fun _ h => absurd h2 h, fun h => ?_⟩
      simp at h
    · by_cases h3 : (Mat.cmpNe dist dist.t).sum ≠ 0
      · have hval : s_CheckInpuErrorsMDS dist = (false, [Diag.mdsNotSymmetric]) := by
          unfold s_CheckInpuErrorsMDS
          rw [if_neg (not_not.mpr h1), if_neg h2, if_pos h3]
        rw [hval]
        refine ⟨⟨fun _ => Or.inr (Or.inr ((cmpNe_t_sum_ne_zero_iff dist h1).mp h3)),
          fun _ => rfl⟩, fun h => absurd h1 h, fun _ h => absurd h h2, fun _ _ _ => rfl,
          fun h => ?_⟩
        simp at h
      · have hval : s_CheckInpuErrorsMDS dist = (true, []) := by
          unfold s_CheckInpuErrorsMDS
          rw [if_neg (not_not.mpr h1), if_neg h2, if_neg h3]
        rw [hval]
        refine ⟨⟨fun h => ?_, fun h => ?_⟩, fun h => absurd h1 h, fun _ h => absurd h h2,
          fun _ _ h => absurd ((cmpNe_t_sum_ne_zero_iff dist h1).mpr h) h3, fun _ => rfl⟩
        · simp at h
        · rcases h with h | h | h
          · exact absurd h1 h
          · exact absurd h h2
          · exact absurd ((cmpNe_t_sum_ne_zero_iff dist h1).mpr h) h3
  · have hval : s_CheckInpuErrorsMDS dist = (false, [Diag.mdsNotSquare]) := by
      unfold s_CheckInpuErrorsMDS
      rw [if_pos h1]
    rw [hval]
    refine ⟨⟨fun _ => Or.inl h1, fun _ => rfl⟩, fun _ => rfl, fun h => absurd h1 h,
      fun h => absurd h1 h, fun h => ?_⟩
    simp at h

end Proofs

end MPAlg

namespace MPAlg

end MPAlg

namespace MPAlg
namespace Mat
variable {K : Type}

@[simp] theorem setCol_rows [Zero K] (M : Mat K) (i : Nat) (R : Mat K) : (M.setCol i R).rows = M.rows := rfl
@[simp] theorem setCol_cols [Zero K] (M : Mat K) (i : Nat) (R : Mat K) : (M.setCol i R).cols = M.cols := rfl
@[simp] theorem setAt_rows [Zero K] (M : Mat K) (i j : Nat) (v : K) : (M.setAt i j v).rows = M.rows := rfl
@[simp] theorem setAt_cols [Zero K] (M : Mat K) (i j : Nat) (v : K) : (M.setAt i j v).cols = M.cols := rfl
@[simp] theorem row_rows [Zero K] (M : Mat K) (i : Nat) : (M.row i).rows = 1 := rfl
@[simp] theorem row_cols [Zero K] (M : Mat K) (i : Nat) : (M.row i).cols = M.cols := rfl
@[simp] theorem col_rows [Zero K] (M : Mat K) (i : Nat) : (M.col i).rows = M.rows := rfl
@[simp] theorem col_cols [Zero K] (M : Mat K) (i : Nat) : (M.col i).cols = 1 := rfl
@[simp] theorem t_rows [Zero K] (M : Mat K) : M.t.rows = M.cols := rfl
@[simp] theorem add_rows [Zero K] [Add K] (A B : Mat K) : (A.add B).rows = A.rows := rfl
@[simp] theorem sub_rows [Zero K] [Sub K] (A B : Mat K) : (A.sub B).rows = A.rows := rfl
@[simp] theorem mul_rows [Semiring K] (A B : Mat K) : (A.mul B).rows = A.rows := rfl
@[simp] theorem mul_cols [Semiring K] (A B : Mat K) : (A.mul B).cols = B.cols := rfl
@[simp] theorem scale_rows [Zero K] [Mul K] (A : Mat K) (s : K) : (A.scale s).rows = A.rows := rfl
@[simp] theorem scale_cols [Zero K] [Mul K] (A : Mat K) (s : K) : (A.scale s).cols = A.cols := rfl
@[simp] theorem map_rows [Zero K] (f : K → K) (A : Mat K) : (A.map f).rows = A.rows := rfl
@[simp] theorem map_cols [Zero K] (f : K → K) (A : Mat K) : (A.map f).cols = A.cols := rfl
@[simp] theorem flipCols_rows [Zero K] (A : Mat K) : A.flipCols.rows = A.rows := rfl
@[simp] theorem flipCols_cols [Zero K] (A : Mat K) : A.flipCols.cols = A.cols := rfl
@[simp] theorem rowRange_rows [Zero K] (A : Mat K) (s e : Nat) : (A.rowRange s e).rows = e - s := rfl
theorem rowRange_cols [Zero K] (A : Mat K) (s e : Nat) (h : s < e) :
    (A.rowRange s e).cols = A.cols := by
  simp [rowRange, h]

@[simp] theorem diag_rows [Zero K] (A : Mat K) : A.diag.rows = A.rows := rfl
@[simp] theorem diag_cols [Zero K] (A : Mat K) : A.diag.cols = A.rows := rfl
@[simp] theorem reduceSum0_rows [AddCommMonoid K] (A : Mat K) : A.reduceSum0.rows = 1 := rfl
@[simp] theorem reduceSum0_cols [AddCommMonoid K] (A : Mat K) : A.reduceSum0.cols = A.cols := rfl
@[simp] theorem mulElem_rows [Zero K] [Mul K] (A B : Mat K) : (A.mulElem B).rows = A.rows := rfl
@[simp] theorem mulElem_cols [Zero K] [Mul K] (A B : Mat K) : (A.mulElem B).cols = A.cols := rfl

theorem get_row [Zero K] (M : Mat K) (i b : Nat) : (M.row i).get 0 b = M.get i b := by
  by_cases hb : b < M.cols
  · simp [row, hb]
  · rw [get_eq_zero M i b (by simp [hb]), get_eq_zero _ 0 b (by simp [hb])]

end Mat

section LampLemmas
variable {K : Type} [LinearOrderedField K]

end LampLemmas
end MPAlg

namespace MPAlg
section LampLemmas2
variable {K : Type} [LinearOrderedField K]

theorem get_setAt (M : Mat K) (i j : Nat) (v : K) (a b : Nat) (ha : a < M.rows)
    (hb : b < M.cols) :
    (M.setAt i j v).get a b = if a = i ∧ b = j then v else M.get a b := by
  simp [Mat.setAt, ha, hb]

theorem forLoop_setAt (w : Nat → K) (a0 : Mat K) (n : Nat) :
    (forLoop n (fun j a => a.setAt 0 j (w j)) a0).rows = a0.rows ∧
    (forLoop n (fun j a => a.setAt 0 j (w j)) a0).cols = a0.cols ∧
    ∀ i j, i < a0.rows → j < a0.cols →
      (forLoop n (fun j a => a.setAt 0 j (w j)) a0).get i j =
        if i = 0 ∧ j < n then w j else a0.get i j := by
  induction n with
  | zero => exact ⟨rfl, rfl, fun i j _ _ => by simp [forLoop_zero]⟩
  | succ n ih =>
    obtain ⟨hr, hc, hg⟩ := ih
    rw [forLoop_succ]
    generalize forLoop n (fun j a => a.setAt 0 j (w j)) a0 = st at *
    refine ⟨by simpa using hr, by simpa using hc, ?_⟩
    intro i j hi hj
    rw [get_setAt st 0 n (w n) i j (by rw [hr]; exact hi) (by rw [hc]; exact hj)]
    by_cases h1 : i = 0 ∧ j = n
    · have : i = 0 ∧ j < n + 1 := ⟨h1.1, by omega⟩
      rw [if_pos h1, if_pos this, h1.2]
    · rw [if_neg h1, hg i j hi hj]
      by_cases h2 : i = 0 ∧ j < n
      · have : i = 0 ∧ j < n + 1 := ⟨h2.1, by omega⟩
        rw [if_pos h2, if_pos this]
      · have : ¬ (i = 0 ∧ j < n + 1) := by
          rintro ⟨h3, h4⟩
          rcases Nat.lt_succ_iff_lt_or_eq.mp h4 with h5 | h5
          · exact h2 ⟨h3, h5⟩
          · exact h1 ⟨h3, h5⟩
        rw [if_neg h2, if_neg this]

/-- The weight loop overwrites the whole buffer: what it leaves does not depend on what the
buffer held before. -/
theorem lampAlpha_eq (be : Backend K) (Xs : Mat K) (cpn : Nat) (x a : Mat K)
    (hr : a.rows = 1) (hc : a.cols = cpn) :
    lampAlpha be Xs cpn x a =
      Mat.ofFn 1 cpn (fun _ j => 1 / max (cvNorm be (Xs.row j) x) tol) := by
  obtain ⟨h1, h2, h3⟩ :=
    forLoop_setAt (fun j => 1 / max (cvNorm be (Xs.row j) x) tol) a cpn
  unfold lampAlpha
  apply Mat.ext_get
  · rw [h1, hr]; rfl
  · rw [h2, hc]; rfl
  · intro i j hi hj
    rw [h1] at hi
    rw [h2] at hj
    rw [h3 i j hi hj]
    have hi0 : i = 0 := by omega
    have hj' : j < cpn := by omega
    simp [hi0, hj']

end LampLemmas2
end MPAlg

namespace MPAlg
section LampTheorems
variable {K : Type} [LinearOrderedField K]

end LampTheorems
end MPAlg

namespace MPAlg


section LampTheorems2
variable {K : Type} [LinearOrderedField K]

end LampTheorems2
end MPAlg

namespace MPAlg

end MPAlg

namespace MPAlg
section MdsLemmas
variable {K : Type} [LinearOrderedField K]

theorem mds_valid_iff (dist : Mat K) :
    (s_CheckInpuErrorsMDS dist).1 = true ↔
      dist.rows = dist.cols ∧ 3 ≤ dist.rows ∧
        ∀ i j, i < dist.rows → j < dist.cols → dist.get i j = dist.get j i := by
  by_cases h1 : dist.rows = dist.cols
  · by_cases h2 : dist.rows < 3
    · have hval : s_CheckInpuErrorsMDS dist = (false, [Diag.mdsTooFewSamples]) := by
        unfold s_CheckInpuErrorsMDS
        rw [if_neg (not_not.mpr h1), if_pos h2]
      rw [hval]
      constructor
      · intro h; simp at h
      · intro h; omega
    · by_cases h3 : (Mat.cmpNe dist dist.t).sum ≠ 0
      · have hval : s_CheckInpuErrorsMDS dist = (false, [Diag.mdsNotSymmetric]) := by
          unfold s_CheckInpuErrorsMDS
          rw [if_neg (not_not.mpr h1), if_neg h2, if_pos h3]
        rw [hval]
        constructor
        · intro h; simp at h
        · intro h
          obtain ⟨i, j, hi, hj, hne⟩ := (cmpNe_t_sum_ne_zero_iff dist h1).mp h3
          exact absurd (h.2.2 i j hi hj) hne
      · have hval : s_CheckInpuErrorsMDS dist = (true, []) := by
          unfold s_CheckInpuErrorsMDS
          rw [if_neg (not_not.mpr h1), if_neg h2, if_neg h3]
        rw [hval]
        refine ⟨fun _ => ⟨h1, by omega, ?_⟩, fun _ => rfl⟩
        intro i j hi hj
        by_contra hne
        exact h3 ((cmpNe_t_sum_ne_zero_iff dist h1).mpr ⟨i, j, hi, hj, hne⟩)
  · have hval : s_CheckInpuErrorsMDS dist = (false, [Diag.mdsNotSquare]) := by
      unfold s_CheckInpuErrorsMDS
      rw [if_pos h1]
    rw [hval]
    constructor
    · intro h; simp at h
    · intro h; exact absurd h.1 h1

@[simp] theorem cmdscaleB_rows (dist : Mat K) : (cmdscaleB dist).rows = dist.cols := rfl

@[simp] theorem cmdscaleB_cols (dist : Mat K) : (cmdscaleB dist).cols = dist.cols := rfl

@[simp] theorem cvEigen_evals_rows (be : Backend K) (B : Mat K) : (cvEigen be B).1.rows = B.rows :=
  rfl

@[simp] theorem cvEigen_evals_cols (be : Backend K) (B : Mat K) : (cvEigen be B).1.cols = 1 := rfl

@[simp] theorem cvEigen_evecs_rows (be : Backend K) (B : Mat K) : (cvEigen be B).2.rows = B.rows :=
  rfl

@[simp] theorem cvEigen_evecs_cols (be : Backend K) (B : Mat K) : (cvEigen be B).2.cols = B.rows :=
  rfl

/-- How an accepted call with `1 ≤ k ≤ n` runs: both row ranges are in bounds, the selected
eigenvalues form a column, and the result is the flipped product of the selected eigenvectors
and the square roots. -/
theorem cmdscale_run (be : Backend K) (dist : Mat K) (k : Nat) (heap : Heap K)
    (eigenvals eigenvecs : Option Nat)
    (hv : (s_CheckInpuErrorsMDS dist).1 = true) (hk1 : 1 ≤ k) (hk : k ≤ dist.rows) :
    cmdscale be dist (k : Int) heap eigenvals eigenvecs = .ok
      ⟨((((cvEigen be (cmdscaleB dist)).2.rowRange (dist.rows - k) dist.rows).t).mul
          (((((cvEigen be (cmdscaleB dist)).1.rowRange (dist.rows - k) dist.rows).diag).map abs).map
            be.sqrt)).flipCols,
        [],
        (rebindIfRequested (rebindIfRequested heap eigenvals (cvEigen be (cmdscaleB dist)).1).1
          eigenvecs (cvEigen be (cmdscaleB dist)).2).1⟩ := by
  have hsq := ((mds_valid_iff dist).mp hv).1
  have hrange : 0 ≤ ((dist.cols : Nat) : Int) - (k : Int) ∧
      ((dist.cols : Nat) : Int) - (k : Int) ≤ ((dist.cols : Nat) : Int) := by
    constructor <;> omega
  have hs : (((dist.cols : Nat) : Int) - (k : Int)).toNat = dist.cols - k := by omega
  have hcol : ((cvEigen be (cmdscaleB dist)).1.rowRange (dist.cols - k) dist.cols).cols = 1 ∨
      ((cvEigen be (cmdscaleB dist)).1.rowRange (dist.cols - k) dist.cols).rows = 1 := by
    left
    rw [Mat.rowRange_cols _ _ _ (by omega)]
    rfl
  unfold cmdscale
  rw [if_neg (by rw [hv]; simp)]
  simp only [cvEigen_evals_rows, cvEigen_evecs_rows, cmdscaleB_rows]
  rw [if_pos hrange, hs, if_pos hcol, if_pos hrange, hsq]

/-- Entry `(i, c)` of the matrix returned by an accepted call: component `i` of eigenvector row
`n - 1 - c`, times the square root of the absolute value of eigenvalue `n - 1 - c`. -/
theorem cmdscale_ret_entry (be : Backend K) (dist : Mat K) (k : Nat) (hk : k ≤ dist.rows)
    (hsq : dist.rows = dist.cols) (h0 : be.sqrt 0 = 0) (i c : Nat) (hi : i < dist.rows)
    (hc : c < k) :
    (((((cvEigen be (cmdscaleB dist)).2.rowRange (dist.rows - k) dist.rows).t).mul
          (((((cvEigen be (cmdscaleB dist)).1.rowRange (dist.rows - k) dist.rows).diag).map abs).map
            be.sqrt)).flipCols).get i c =
      (cvEigen be (cmdscaleB dist)).2.get (dist.rows - 1 - c) i *
        be.sqrt |(cvEigen be (cmdscaleB dist)).1.get (dist.rows - 1 - c) 0| := by
  generalize hE : cvEigen be (cmdscaleB dist) = E
  have hr1 : E.1.rows = dist.rows := by rw [← hE, hsq]; rfl
  have hc1 : E.1.cols = 1 := by rw [← hE]; rfl
  have hr2 : E.2.rows = dist.rows := by rw [← hE, hsq]; rfl
  have hc2 : E.2.cols = dist.rows := by rw [← hE, hsq]; rfl
  have hkk : dist.rows - (dist.rows - k) = k := by omega
  have hck : k - 1 - c < k := by omega
  have hlt : dist.rows - k < dist.rows := by omega
  simp only [Mat.flipCols, Mat.mul, Mat.t, Mat.map, Mat.diag, Mat.rowRange, Mat.ofFn_rows,
    Mat.ofFn_cols, Mat.get_ofFn, hr1, hc1, hr2, hc2, hkk, hi, hc, hck, hlt, and_self, if_true]
  rw [Finset.sum_eq_single (k - 1 - c)]
  · have e1 : dist.rows - k + (k - 1 - c) = dist.rows - 1 - c := by omega
    simp [hck, hi, e1]
  · intro b hb hne
    have hb' : b < k := Finset.mem_range.mp hb
    simp [hb', hi, hck, hne, h0]
  · intro h
    exact absurd (Finset.mem_range.mpr hck) h

/-- An accepted call with `1 ≤ k ≤ n` returns, and its entries are those of
`cmdscale_ret_entry`. -/
theorem cmdscale_ok_entry (be : Backend K) (dist : Mat K) (k : Nat) (heap : Heap K)
    (eigenvals eigenvecs : Option Nat)
    (hv : (s_CheckInpuErrorsMDS dist).1 = true) (hk1 : 1 ≤ k) (hk : k ≤ dist.rows)
    (h0 : be.sqrt 0 = 0) :
    ∃ out, cmdscale be dist (k : Int) heap eigenvals eigenvecs = .ok out ∧
      ∀ i c, i < dist.rows → c < k →
        out.ret.get i c =
          (cvEigen be (cmdscaleB dist)).2.get (dist.rows - 1 - c) i *
            be.sqrt |(cvEigen be (cmdscaleB dist)).1.get (dist.rows - 1 - c) 0| :=
  ⟨_, cmdscale_run be dist k heap eigenvals eigenvecs hv hk1 hk,
    fun i c hi hc =>
      cmdscale_ret_entry be dist k hk ((mds_valid_iff dist).mp hv).1 h0 i c hi hc⟩

end MdsLemmas
end MPAlg

namespace MPAlg
section BEntry
variable {K : Type} [LinearOrderedField K]

theorem centering_get (n i a : Nat) (hi : i < n) (ha : a < n) :
    ((Mat.eye n n).sub ((Mat.ones n n).scale (1 / (n : K)))).get i a =
      (if i = a then 1 else 0) - 1 / (n : K) := by
  simp [Mat.sub, Mat.eye, Mat.ones, Mat.scale, hi, ha]

theorem sum_delta_mul (n i : Nat) (hi : i < n) (f : Nat → K) :
    ∑ a in Finset.range n, ((if i = a then (1 : K) else 0) - 1 / (n : K)) * f a =
      f i - 1 / (n : K) * ∑ a in Finset.range n, f a := by
  simp only [sub_mul, Finset.sum_sub_distrib, ite_mul, one_mul, zero_mul, Finset.sum_ite_eq,
    Finset.mem_range, hi, if_true, Finset.mul_sum]

theorem sum_mul_delta (n j : Nat) (hj : j < n) (f : Nat → K) :
    ∑ b in Finset.range n, f b * ((if b = j then (1 : K) else 0) - 1 / (n : K)) =
      f j - 1 / (n : K) * ∑ b in Finset.range n, f b := by
  simp only [mul_sub, Finset.sum_sub_distrib, mul_ite, mul_one, mul_zero, Finset.sum_ite_eq',
    Finset.mem_range, hj, if_true, Finset.mul_sum]
  congr 1
  apply Finset.sum_congr rfl
  intro b _
  ring

theorem get_mul (A B : Mat K) (i j : Nat) (hi : i < A.rows) (hj : j < B.cols) :
    (A.mul B).get i j = ∑ l in Finset.range A.cols, A.get i l * B.get l j := by
  simp [Mat.mul, hi, hj]

theorem get_scale (A : Mat K) (s : K) (i j : Nat) : (A.scale s).get i j = A.get i j * s := by
  by_cases h : i < A.rows ∧ j < A.cols
  · simp [Mat.scale, h]
  · rw [Mat.get_eq_zero A i j h, Mat.get_eq_zero _ i j (by simpa using h), zero_mul]

/-- Entry `(i, j)` of the centred matrix: half of the squared distance minus its column mean,
minus its row mean, plus the grand mean. -/
theorem cmdscaleB_entry (dist : Mat K) (hsq : dist.rows = dist.cols) (i j : Nat)
    (hi : i < dist.cols) (hj : j < dist.cols) :
    (cmdscaleB dist).get i j =
      1 / 2 * (dist.get i j * dist.get i j
        - 1 / (dist.cols : K) * ∑ a in Finset.range dist.cols, dist.get a j * dist.get a j
        - 1 / (dist.cols : K) * ∑ b in Finset.range dist.cols, dist.get i b * dist.get i b
        + 1 / (dist.cols : K) * (1 / (dist.cols : K)) *
            ∑ a in Finset.range dist.cols, ∑ b in Finset.range dist.cols,
              dist.get a b * dist.get a b) := by
  have hD : ∀ a b, a < dist.cols → b < dist.cols →
      (dist.map (fun x => x * x)).get a b = dist.get a b * dist.get a b := by
    intro a b ha hb
    simp [Mat.map, hsq, ha, hb]
  unfold cmdscaleB
  generalize hJ : (Mat.eye dist.cols dist.cols).sub
    ((Mat.ones dist.cols dist.cols).scale (1 / (dist.cols : K))) = J
  have hJr : J.rows = dist.cols := by rw [← hJ]; rfl
  have hJc : J.cols = dist.cols := by rw [← hJ]; rfl
  have hJg : ∀ a b, a < dist.cols → b < dist.cols →
      J.get a b = (if a = b then 1 else 0) - 1 / (dist.cols : K) := by
    intro a b ha hb
    rw [← hJ]
    exact centering_get dist.cols a b ha hb
  rw [get_scale, get_mul _ _ i j (by simpa [hJr] using hi) (by rw [hJc]; exact hj)]
  simp only [Mat.mul_cols, Mat.map_cols]
  have h1 : ∀ b ∈ Finset.range dist.cols,
      (J.mul (dist.map (fun x => x * x))).get i b * J.get b j =
      (dist.get i b * dist.get i b
        - 1 / (dist.cols : K) * ∑ a in Finset.range dist.cols, dist.get a b * dist.get a b) *
        ((if b = j then 1 else 0) - 1 / (dist.cols : K)) := by
    intro b hb
    have hb' := Finset.mem_range.mp hb
    rw [get_mul _ _ i b (by rw [hJr]; exact hi) (by simpa using hb'), hJg b j hb' hj, hJc]
    congr 1
    rw [← sum_delta_mul dist.cols i hi (fun a => dist.get a b * dist.get a b)]
    apply Finset.sum_congr rfl
    intro a ha
    rw [hJg i a hi (Finset.mem_range.mp ha), hD a b (Finset.mem_range.mp ha) hb']
  rw [Finset.sum_congr rfl h1,
    sum_mul_delta dist.cols j hj (fun b => dist.get i b * dist.get i b
        - 1 / (dist.cols : K) * ∑ a in Finset.range dist.cols, dist.get a b * dist.get a b)]
  simp only [Finset.sum_sub_distrib, ← Finset.mul_sum]
  rw [Finset.sum_comm]
  ring

end BEntry
end MPAlg

namespace MPAlg
section RectFacts
variable {K : Type} [LinearOrderedField K]

theorem rectDist_valid : (s_CheckInpuErrorsMDS (rectDist K)).1 = true := by
  rw [mds_valid_iff]
  refine ⟨rfl, Nat.le_of_ble_eq_true rfl, ?_⟩
  intro i j hi hj
  have hi' : i < 4 := hi
  have hj' : j < 4 := hj
  interval_cases i <;> interval_cases j <;> simp [rectDist, Mat.ofRows]

set_option maxHeartbeats 1000000 in
theorem cmdscaleB_rect (i j : Nat) (hi : i < 4) (hj : j < 4) :
    (cmdscaleB (rectDist K)).get i j = (rectB K).get i j := by
  rw [cmdscaleB_entry _ rfl i j hi hj]
  have hc : (rectDist K).cols = 4 := rfl
  rw [hc]
  interval_cases i <;> interval_cases j <;>
    simp [rectDist, rectB, Mat.ofRows, Finset.sum_range_succ] <;> norm_num

end RectFacts
end MPAlg

namespace MPAlg
section RectFacts2
variable {K : Type} [LinearOrderedField K]

theorem reshape_self (M : Mat K) : Mat.reshape M.rows M.cols M = M := by
  apply Mat.ext_get
  · rfl
  · rfl
  · intro i j hi hj
    simp only [Mat.reshape, Mat.ofFn_rows, Mat.ofFn_cols] at hi hj
    simp [Mat.reshape, hi, hj]

theorem cvEigen_table_rect (sq : K → K) (evals evecs : Mat K) (hr1 : evals.rows = 4)
    (hc1 : evals.cols = 1) (hr2 : evecs.rows = 4) (hc2 : evecs.cols = 4) :
    cvEigen (tableBackend sq evals evecs) (cmdscaleB (rectDist K)) = (evals, evecs) := by
  have h4 : (cmdscaleB (rectDist K)).rows = 4 := rfl
  unfold cvEigen tableBackend
  simp only [h4]
  have e1 : Mat.reshape 4 1 evals = evals := by
    have := reshape_self evals
    rwa [hr1, hc1] at this
  have e2 : Mat.reshape 4 4 evecs = evecs := by
    have := reshape_self evecs
    rwa [hr2, hc2] at this
  rw [e1, e2]

theorem rect_exactEigen_of (evals evecs : Mat K)
    (h1 : ∀ a b, a < 4 → b < 4 →
      ∑ l in Finset.range 4, evecs.get a l * evecs.get b l = if a = b then 1 else 0)
    (h2 : ∀ a i, a < 4 → i < 4 →
      ∑ l in Finset.range 4, (rectB K).get i l * evecs.get a l = evals.get a 0 * evecs.get a i) :
    ExactEigen (cmdscaleB (rectDist K)) evals evecs := by
  refine ⟨h1, ?_⟩
  intro a i ha hi
  rw [← h2 a i ha hi]
  apply Finset.sum_congr rfl
  intro l hl
  rw [cmdscaleB_rect i l hi (Finset.mem_range.mp hl)]

set_option maxHeartbeats 2000000 in
theorem rect_exactEigen_desc :
    ExactEigen (cmdscaleB (rectDist K)) (rectEvalsDesc K) (rectEvecsDesc K) := by
  apply rect_exactEigen_of
  · intro a b ha hb
    interval_cases a <;> interval_cases b <;>
      simp [rectEvecsDesc, Mat.ofRows, Finset.sum_range_succ] <;> norm_num
  · intro a i ha hi
    interval_cases a <;> interval_cases i <;>
      simp [rectEvecsDesc, rectEvalsDesc, rectB, Mat.ofRows, Finset.sum_range_succ] <;> norm_num

set_option maxHeartbeats 2000000 in
theorem rect_exactEigen_asc :
    ExactEigen (cmdscaleB (rectDist K)) (rectEvalsAsc K) (rectEvecsAsc K) := by
  apply rect_exactEigen_of
  · intro a b ha hb
    interval_cases a <;> interval_cases b <;>
      simp [rectEvecsAsc, Mat.ofRows, Finset.sum_range_succ] <;> norm_num
  · intro a i ha hi
    interval_cases a <;> interval_cases i <;>
      simp [rectEvecsAsc, rectEvalsAsc, rectB, Mat.ofRows, Finset.sum_range_succ] <;> norm_num

theorem rect_descending : Descending (rectEvalsDesc K) := by
  intro a b hab hb
  have hb' : b < 4 := hb
  interval_cases b <;> interval_cases a <;> norm_num [rectEvalsDesc, Mat.ofRows]

theorem rect_ascending : Ascending (rectEvalsAsc K) := by
  intro a b hab hb
  have hb' : b < 4 := hb
  interval_cases b <;> interval_cases a <;> norm_num [rectEvalsAsc, Mat.ofRows]

end RectFacts2
end MPAlg

namespace MPAlg
section MdsClaims
variable {K : Type} [LinearOrderedField K]

/-- C9. For every `dist` accepted by validation and every `k` with `1 ≤ k ≤ n`, both row
ranges `[n - k, n)` pass the range assertion of `rowRange` (`evals` and `evecs` have `n` rows),
`cmdscale` returns, and the returned matrix has exactly `n` rows and `k` columns. -/
theorem cmdscale_output_shape (be : Backend K) (dist : Mat K) (k : Int) (heap : Heap K)
    (eigenvals eigenvecs : Option Nat)
    (hv : (s_CheckInpuErrorsMDS dist).1 = true) (hk1 : 1 ≤ k) (hk : k ≤ (dist.rows : Int)) :
    (cvEigen be (cmdscaleB dist)).1.rows = dist.rows ∧
    (cvEigen be (cmdscaleB dist)).2.rows = dist.rows ∧
    0 ≤ (dist.rows : Int) - k ∧ (dist.rows : Int) - k ≤ (dist.rows : Int) ∧
    ∃ out, cmdscale be dist k heap eigenvals eigenvecs = .ok out ∧
      out.ret.rows = dist.rows ∧ (out.ret.cols : Int) = k := by
  have hsq := ((mds_valid_iff dist).mp hv).1
  obtain ⟨k', rfl⟩ := Int.eq_ofNat_of_zero_le (by omega : 0 ≤ k)
  have hk' : k' ≤ dist.rows := by omega
  refine ⟨by rw [hsq]; rfl, by rw [hsq]; rfl, by omega, by omega, _,
    cmdscale_run be dist k' heap eigenvals eigenvecs hv (by omega) hk', ?_, ?_⟩
  · have h3 := ((mds_valid_iff dist).mp hv).2.1
    simp only [Mat.flipCols_rows, Mat.mul_rows, Mat.t_rows]
    rw [Mat.rowRange_cols _ _ _ (by omega)]
    simp only [cvEigen_evecs_cols, cmdscaleB_rows]
    exact hsq.symm
  · simp only [Mat.flipCols_cols, Mat.mul_cols, Mat.map_cols, Mat.diag_cols, Mat.rowRange_rows]
    congr 1
    omega

/-- C10, as amended. For every accepted `dist`, every `1 ≤ k ≤ n` and a backend square root
with `sqrt 0 = 0`, output column `c` of `cmdscale` is row `n - 1 - c` of the backend's
eigenvectors scaled by the square root of the absolute value of eigenvalue `n - 1 - c`: the
eigenpairs used are the last `k` in the backend's order, the last one first.  They are the `k`
largest in descending order when the backend stores eigenvalues in ascending order, and the `k`
smallest in ascending order when it stores them in descending order. -/
theorem cmdscale_selects_last_rows (be : Backend K) (dist : Mat K) (k : Nat) (heap : Heap K)
    (eigenvals eigenvecs : Option Nat)
    (hv : (s_CheckInpuErrorsMDS dist).1 = true) (hk1 : 1 ≤ k) (hk : k ≤ dist.rows)
    (h0 : be.sqrt 0 = 0) :
    ∃ out, cmdscale be dist (k : Int) heap eigenvals eigenvecs = .ok out ∧
      (∀ i c, i < dist.rows → c < k →
        out.ret.get i c =
          (cvEigen be (cmdscaleB dist)).2.get (dist.rows - 1 - c) i *
            be.sqrt |(cvEigen be (cmdscaleB dist)).1.get (dist.rows - 1 - c) 0|) ∧
      (Ascending (cvEigen be (cmdscaleB dist)).1 →
        SelectsLargest (cvEigen be (cmdscaleB dist)).1 k) ∧
      (Descending (cvEigen be (cmdscaleB dist)).1 →
        SelectsSmallest (cvEigen be (cmdscaleB dist)).1 k) := by
  have hsq := ((mds_valid_iff dist).mp hv).1
  have hn : (cvEigen be (cmdscaleB dist)).1.rows = dist.rows := by rw [hsq]; rfl
  obtain ⟨out, hout, hent⟩ := cmdscale_ok_entry be dist k heap eigenvals eigenvecs hv hk1 hk h0
  refine ⟨out, hout, hent, ?_, ?_⟩
  · intro hasc
    unfold SelectsLargest
    rw [hn]
    constructor
    · intro a c ha hc
      exact hasc a (dist.rows - 1 - c) (by omega) (by rw [hn]; omega)
    · intro c c' hcc hc'
      exact hasc (dist.rows - 1 - c') (dist.rows - 1 - c) (by omega) (by rw [hn]; omega)
  · intro hdesc
    unfold SelectsSmallest
    rw [hn]
    constructor
    · intro a c ha hc
      exact hdesc a (dist.rows - 1 - c) (by omega) (by rw [hn]; omega)
    · intro c c' hcc hc'
      exact hdesc (dist.rows - 1 - c') (dist.rows - 1 - c) (by omega) (by rw [hn]; omega)

/-- C5, as amended. For every input that fails validation, `lamp` and `cmdscale` return
normally with the placeholder 1 x 1 zero matrix; the specific failure is reported only on
`stderr`, as the diagnostic of the failed check followed by the "Invalid input" message. -/
theorem invalid_input_returns_placeholder (be : Backend K) :
    (∀ (X : Mat K) (cp_index : List Int) (Ys : Mat K),
      (s_CheckInputErrorsLAMP X cp_index Ys).1 = false →
      ∃ d, (s_CheckInputErrorsLAMP X cp_index Ys).2 = [d] ∧
        lamp be X cp_index Ys = .ok ⟨Mat.zeros 1 1, [d, Diag.lampInvalidInput], []⟩) ∧
    (∀ (dist : Mat K) (k : Int) (heap : Heap K) (eigenvals eigenvecs : Option Nat),
      (s_CheckInpuErrorsMDS dist).1 = false →
      ∃ d, (s_CheckInpuErrorsMDS dist).2 = [d] ∧
        cmdscale be dist k heap eigenvals eigenvecs =
          .ok ⟨Mat.zeros 1 1, [d, Diag.mdsInvalidInput], heap⟩) := by
  constructor
  · intro X cp_index Ys h
    have hd : ∃ d, (s_CheckInputErrorsLAMP X cp_index Ys).2 = [d] := by
      unfold s_CheckInputErrorsLAMP at h ⊢
      split_ifs at h ⊢ <;> exact ⟨_, rfl⟩
    obtain ⟨d, hd⟩ := hd
    refine ⟨d, hd, ?_⟩
    unfold lamp
    rw [if_pos h, hd]
    rfl
  · intro dist k heap eigenvals eigenvecs h
    have hd : ∃ d, (s_CheckInpuErrorsMDS dist).2 = [d] := by
      unfold s_CheckInpuErrorsMDS at h ⊢
      split_ifs at h ⊢ <;> exact ⟨_, rfl⟩
    obtain ⟨d, hd⟩ := hd
    refine ⟨d, hd, ?_⟩
    unfold cmdscale
    rw [if_pos h, hd]
    rfl

theorem testDist_valid : (s_CheckInpuErrorsMDS (testDist K)).1 = true := by
  rw [mds_valid_iff]
  refine ⟨rfl, Nat.le_of_ble_eq_true rfl, ?_⟩
  intro i j hi hj
  have hi' : i < 4 := hi
  have hj' : j < 4 := hj
  interval_cases i <;> interval_cases j <;> simp [testDist, Mat.ofRows]

/-- C6. The call of `test_cmdscale`, `cmdscale(dist, 2, &evals, &evecs)` with `evals` and
`evecs` default-constructed at addresses 0 and 1: the call succeeds, the backend's
eigenvalues and eigenvectors end up in two fresh objects at addresses 2 and 3, and the
caller's objects at addresses 0 and 1 are still empty. -/
theorem cmdscale_aux_outputs_not_delivered (be : Backend K) :
    ∃ out, cmdscale be (testDist K) 2 ⟨[emptyMat K, emptyMat K]⟩ (some 0) (some 1) = .ok out ∧
      out.heap.objs = [emptyMat K, emptyMat K, (cvEigen be (cmdscaleB (testDist K))).1,
        (cvEigen be (cmdscaleB (testDist K))).2] ∧
      (cvEigen be (cmdscaleB (testDist K))).1.rows = 4 ∧
      (cvEigen be (cmdscaleB (testDist K))).2.rows = 4 ∧
      (emptyMat K).rows = 0 :=
  ⟨_, cmdscale_run be (testDist K) 2 ⟨[emptyMat K, emptyMat K]⟩ (some 0) (some 1)
    testDist_valid (Nat.le_of_ble_eq_true rfl) (Nat.le_of_ble_eq_true rfl), rfl, rfl, rfl, rfl⟩

end MdsClaims

/-- The rectangle with `k = 2`: the result is 4 x 2. -/
theorem cmdscale_output_shape_witness :
    (s_CheckInpuErrorsMDS (rectDist ℚ)).1 = true ∧ (1 : Int) ≤ 2 ∧
    (2 : Int) ≤ ((rectDist ℚ).rows : Int) ∧
    ∃ out, cmdscale exampleBackend (rectDist ℚ) 2 ⟨[]⟩ none none = .ok out ∧
      out.ret.rows = 4 ∧ (out.ret.cols : Int) = 2 :=
  ⟨rectDist_valid, by decide, by decide,
    (cmdscale_output_shape exampleBackend (rectDist ℚ) 2 ⟨[]⟩ none none rectDist_valid
      (by decide) (by decide)).2.2.2.2⟩

/-- C5 as stated fails: `lamp` on the points of `test_lamp` with two control indices and
three rows of `Ys` fails validation, and the call returns normally with the 1 x 1 zero matrix
instead of a failure result. -/
theorem invalid_input_placeholder_counterexample :
    (s_CheckInputErrorsLAMP (testX ℚ) [1, 5] (testYs ℚ)).1 = false ∧
    (lamp exampleBackend (testX ℚ) [1, 5] (testYs ℚ) =
      .ok ⟨Mat.zeros 1 1, [Diag.lampControlCountMismatch, Diag.lampInvalidInput], []⟩) ∧
    ¬ ∃ e, lamp exampleBackend (testX ℚ) [1, 5] (testYs ℚ) = .error e := by
  have h : lamp exampleBackend (testX ℚ) [1, 5] (testYs ℚ) =
      .ok ⟨Mat.zeros 1 1, [Diag.lampControlCountMismatch, Diag.lampInvalidInput], []⟩ := by
    unfold lamp
    rw [if_pos (by decide)]
    rfl
  refine ⟨by decide, h, ?_⟩
  rintro ⟨e, he⟩
  rw [h] at he
  cases he

end MPAlg

namespace MPAlg

/-! ## Linear algebra behind classical MDS -/

theorem no_orthogonal_family {K : Type} [Field K] (k : Nat) (w : Fin (k + 1) → Fin k → K)
    (μ : Fin (k + 1) → K) (hμ : ∀ s, μ s ≠ 0)
    (horth : ∀ s t, ∑ c, w s c * w t c = if s = t then μ s else 0) : False := by
  have hli : LinearIndependent K w := by
    rw [Fintype.linearIndependent_iff]
    intro g hg s
    have h1 : ∑ c, (∑ t, g t • w t) c * w s c = 0 := by
      rw [hg]; simp
    have h2 : ∑ c, (∑ t, g t • w t) c * w s c = g s * μ s := by
      simp only [Finset.sum_apply, Pi.smul_apply, smul_eq_mul, Finset.sum_mul]
      rw [Finset.sum_comm]
      simp only [mul_assoc, ← Finset.mul_sum, horth]
      simp
    rw [h2] at h1
    rcases mul_eq_zero.mp h1 with h | h
    · exact h
    · exact absurd h (hμ s)
  have := hli.fintype_card_le_finrank
  simp at this

theorem col_orthonormal {K : Type} [Field K] (n : Nat) (V : Nat → Nat → K)
    (h : ∀ a b, a < n → b < n → ∑ l in Finset.range n, V a l * V b l = if a = b then 1 else 0)
    (i j : Nat) (hi : i < n) (hj : j < n) :
    ∑ a in Finset.range n, V a i * V a j = if i = j then 1 else 0 := by
  let M : Matrix (Fin n) (Fin n) K := fun a l => V a l
  have h1 : M * M.transpose = 1 := by
    ext a b
    simp only [Matrix.mul_apply, Matrix.transpose_apply, Matrix.one_apply, M]
    rw [Fin.sum_univ_eq_sum_range (fun l => V a l * V b l) n, h a b a.isLt b.isLt]
    simp [Fin.ext_iff]
  have h2 : M.transpose * M = 1 := Matrix.mul_eq_one_comm.mp h1
  have h3 := congrFun (congrFun h2 ⟨i, hi⟩) ⟨j, hj⟩
  simp only [Matrix.mul_apply, Matrix.transpose_apply, Matrix.one_apply, M] at h3
  rw [Fin.sum_univ_eq_sum_range (fun a => V a i * V a j) n] at h3
  rw [h3]
  simp [Fin.ext_iff]

section
variable {K : Type} [LinearOrderedField K]

theorem sum_sq_sub (n : Nat) (x : Nat → K) (y : K) :
    ∑ a in Finset.range n, (x a - y) * (x a - y) =
      ∑ a in Finset.range n, x a * x a - 2 * y * ∑ a in Finset.range n, x a + n * (y * y) := by
  have : ∀ a, (x a - y) * (x a - y) = x a * x a - 2 * y * x a + y * y := fun a => by ring
  simp only [this, Finset.sum_add_distrib, Finset.sum_sub_distrib, ← Finset.mul_sum,
    Finset.sum_const, Finset.card_range, nsmul_eq_mul]
  ring

/-- Double centring of the squared differences of one coordinate. -/
theorem center_coord (n : Nat) (hn : 0 < n) (x : Nat → K) (i j : Nat) :
    1 / 2 * ((x i - x j) * (x i - x j)
      - 1 / (n : K) * ∑ a in Finset.range n, (x a - x j) * (x a - x j)
      - 1 / (n : K) * ∑ b in Finset.range n, (x i - x b) * (x i - x b)
      + 1 / (n : K) * (1 / (n : K)) *
          ∑ a in Finset.range n, ∑ b in Finset.range n, (x a - x b) * (x a - x b)) =
    -((x i - 1 / (n : K) * ∑ a in Finset.range n, x a) *
      (x j - 1 / (n : K) * ∑ a in Finset.range n, x a)) := by
  have hn' : (n : K) ≠ 0 := Nat.cast_ne_zero.mpr (by omega)
  have h2 : ∀ a b, (x a - x b) * (x a - x b) = (x b - x a) * (x b - x a) := fun a b => by ring
  have h3 : ∀ a, ∑ b in Finset.range n, (x a - x b) * (x a - x b) =
      ∑ b in Finset.range n, x b * x b - 2 * x a * ∑ b in Finset.range n, x b
        + n * (x a * x a) := by
    intro a
    rw [Finset.sum_congr rfl (fun b _ => h2 a b)]
    exact sum_sq_sub n x (x a)
  rw [Finset.sum_congr rfl (fun b _ => h2 i b)]
  simp only [h3, sum_sq_sub, Finset.sum_add_distrib, Finset.sum_sub_distrib,
    ← Finset.mul_sum, ← Finset.sum_mul, Finset.sum_const, Finset.card_range, nsmul_eq_mul]
  field_simp
  ring

end

section
variable {K : Type} [LinearOrderedField K]

/-- Double centring of squared Euclidean distances gives minus the Gram matrix of the centred
points. -/
theorem center_gram (n k : Nat) (hn : 0 < n) (p : Nat → Nat → K) (i j : Nat) :
    1 / 2 * (∑ c in Finset.range k, (p i c - p j c) * (p i c - p j c)
      - 1 / (n : K) * ∑ a in Finset.range n,
          ∑ c in Finset.range k, (p a c - p j c) * (p a c - p j c)
      - 1 / (n : K) * ∑ b in Finset.range n,
          ∑ c in Finset.range k, (p i c - p b c) * (p i c - p b c)
      + 1 / (n : K) * (1 / (n : K)) *
          ∑ a in Finset.range n, ∑ b in Finset.range n,
            ∑ c in Finset.range k, (p a c - p b c) * (p a c - p b c)) =
    -∑ c in Finset.range k, centred n p i c * centred n p j c := by
  have e1 : ∑ a in Finset.range n, ∑ c in Finset.range k, (p a c - p j c) * (p a c - p j c) =
      ∑ c in Finset.range k, ∑ a in Finset.range n, (p a c - p j c) * (p a c - p j c) :=
    Finset.sum_comm
  have e2 : ∑ b in Finset.range n, ∑ c in Finset.range k, (p i c - p b c) * (p i c - p b c) =
      ∑ c in Finset.range k, ∑ b in Finset.range n, (p i c - p b c) * (p i c - p b c) :=
    Finset.sum_comm
  have e3 : ∑ a in Finset.range n, ∑ b in Finset.range n,
      ∑ c in Finset.range k, (p a c - p b c) * (p a c - p b c) =
      ∑ c in Finset.range k, ∑ a in Finset.range n, ∑ b in Finset.range n,
        (p a c - p b c) * (p a c - p b c) := by
    rw [Finset.sum_congr rfl (fun a _ => Finset.sum_comm)]
    exact Finset.sum_comm
  have key : ∀ c, -(centred n p i c * centred n p j c) =
      1 / 2 * ((p i c - p j c) * (p i c - p j c)
      - 1 / (n : K) * ∑ a in Finset.range n, (p a c - p j c) * (p a c - p j c)
      - 1 / (n : K) * ∑ b in Finset.range n, (p i c - p b c) * (p i c - p b c)
      + 1 / (n : K) * (1 / (n : K)) *
          ∑ a in Finset.range n, ∑ b in Finset.range n, (p a c - p b c) * (p a c - p b c)) :=
    fun c => (center_coord n hn (fun a => p a c) i j).symm
  rw [e1, e2, e3, ← Finset.sum_neg_distrib, Finset.sum_congr rfl (fun c _ => key c)]
  simp only [← Finset.mul_sum, Finset.sum_add_distrib, Finset.sum_sub_distrib]


/-- The images of the eigenvectors under the transposed centred points are pairwise orthogonal,
with squared length minus the eigenvalue. -/
theorem eig_images_orth (n k : Nat) (B V q : Nat → Nat → K) (lam : Nat → K)
    (hB : ∀ i j, i < n → j < n → B i j = -∑ c in Finset.range k, q i c * q j c)
    (hV : ∀ a b, a < n → b < n →
      ∑ l in Finset.range n, V a l * V b l = if a = b then 1 else 0)
    (hE : ∀ a i, a < n → i < n → ∑ l in Finset.range n, B i l * V a l = lam a * V a i)
    (a b : Nat) (ha : a < n) (hb : b < n) :
    ∑ c in Finset.range k,
      (∑ i in Finset.range n, q i c * V a i) * (∑ j in Finset.range n, q j c * V b j) =
      if a = b then -lam b else 0 := by
  have step1 : ∑ c in Finset.range k,
      (∑ i in Finset.range n, q i c * V a i) * (∑ j in Finset.range n, q j c * V b j) =
      ∑ i in Finset.range n, V a i * ∑ j in Finset.range n,
        (∑ c in Finset.range k, q i c * q j c) * V b j := by
    rw [Finset.sum_congr rfl (fun c _ => Finset.sum_mul_sum _ _ _ _), Finset.sum_comm]
    apply Finset.sum_congr rfl
    intro i _
    rw [Finset.sum_comm, Finset.mul_sum]
    apply Finset.sum_congr rfl
    intro j _
    rw [Finset.sum_mul, Finset.mul_sum]
    apply Finset.sum_congr rfl
    intro c _
    ring
  have step2 : ∀ i ∈ Finset.range n,
      V a i * ∑ j in Finset.range n, (∑ c in Finset.range k, q i c * q j c) * V b j =
      -lam b * (V a i * V b i) := by
    intro i hi
    have hi' := Finset.mem_range.mp hi
    have : ∑ j in Finset.range n, (∑ c in Finset.range k, q i c * q j c) * V b j =
        -∑ j in Finset.range n, B i j * V b j := by
      rw [← Finset.sum_neg_distrib]
      apply Finset.sum_congr rfl
      intro j hj
      rw [hB i j hi' (Finset.mem_range.mp hj)]
      ring
    rw [this, hE b i hb hi']
    ring
  rw [step1, Finset.sum_congr rfl step2, ← Finset.mul_sum, hV a b ha hb]
  split_ifs <;> simp

/-- With eigenvalues stored in descending order and a Gram matrix of points in `k`
dimensions, every eigenvalue outside the last `k` is zero, and all are nonpositive. -/
theorem eig_unselected_zero (n k : Nat) (B V q : Nat → Nat → K) (lam : Nat → K)
    (hB : ∀ i j, i < n → j < n → B i j = -∑ c in Finset.range k, q i c * q j c)
    (hV : ∀ a b, a < n → b < n →
      ∑ l in Finset.range n, V a l * V b l = if a = b then 1 else 0)
    (hE : ∀ a i, a < n → i < n → ∑ l in Finset.range n, B i l * V a l = lam a * V a i)
    (hdesc : ∀ a b, a ≤ b → b < n → lam b ≤ lam a) :
    (∀ a, a < n → lam a ≤ 0) ∧ ∀ a, a < n - k → lam a = 0 := by
  have hnonpos : ∀ a, a < n → lam a ≤ 0 := by
    intro a ha
    have h := eig_images_orth n k B V q lam hB hV hE a a ha ha
    rw [if_pos rfl] at h
    have hsq : 0 ≤ ∑ c in Finset.range k,
        (∑ i in Finset.range n, q i c * V a i) * (∑ j in Finset.range n, q j c * V a j) :=
      Finset.sum_nonneg (fun c _ => mul_self_nonneg _)
    rw [h] at hsq
    linarith
  refine ⟨hnonpos, ?_⟩
  intro a ha
  by_contra hne
  have hneg : lam a < 0 := lt_of_le_of_ne (hnonpos a (by omega)) hne
  apply no_orthogonal_family k
    (fun (t : Fin (k + 1)) (c : Fin k) => ∑ i in Finset.range n, q i c * V (a + t) i)
    (fun t => -lam (a + t))
  · intro t
    have ht : (t : Nat) < k + 1 := t.isLt
    have := hdesc a (a + t) (by omega) (by omega)
    have : lam (a + t) < 0 := lt_of_le_of_lt this hneg
    simp only [ne_eq, neg_eq_zero]
    exact ne_of_lt this
  · intro s t
    have hs : (s : Nat) < k + 1 := s.isLt
    have ht : (t : Nat) < k + 1 := t.isLt
    rw [Fin.sum_univ_eq_sum_range
      (fun c => (∑ i in Finset.range n, q i c * V (a + s) i) *
        (∑ i in Finset.range n, q i c * V (a + t) i)) k,
      eig_images_orth n k B V q lam hB hV hE (a + s) (a + t) (by omega) (by omega)]
    by_cases hst : s = t
    · subst hst; simp
    · have : ¬ (a + (s : Nat) = a + (t : Nat)) := by
        intro h
        apply hst
        apply Fin.ext
        omega
      rw [if_neg this, if_neg hst]

/-- Spectral decomposition from orthonormal eigenvector rows. -/
theorem spectral_sum (n : Nat) (B V : Nat → Nat → K) (lam : Nat → K)
    (hV : ∀ a b, a < n → b < n →
      ∑ l in Finset.range n, V a l * V b l = if a = b then 1 else 0)
    (hE : ∀ a i, a < n → i < n → ∑ l in Finset.range n, B i l * V a l = lam a * V a i)
    (i j : Nat) (hi : i < n) (hj : j < n) :
    ∑ a in Finset.range n, lam a * V a i * V a j = B i j := by
  have h1 : ∀ a ∈ Finset.range n, lam a * V a i * V a j =
      ∑ l in Finset.range n, B i l * (V a l * V a j) := by
    intro a ha
    rw [← hE a i (Finset.mem_range.mp ha) hi, Finset.sum_mul]
    apply Finset.sum_congr rfl
    intro l _
    ring
  rw [Finset.sum_congr rfl h1, Finset.sum_comm]
  have h2 : ∀ l ∈ Finset.range n, ∑ a in Finset.range n, B i l * (V a l * V a j) =
      B i l * (if l = j then 1 else 0) := by
    intro l hl
    rw [← Finset.mul_sum, col_orthonormal n V hV l j (Finset.mem_range.mp hl) hj]
  rw [Finset.sum_congr rfl h2]
  simp [hj]


/-- The Gram matrix of the rows built from the last `k` eigenpairs, each eigenvector scaled by
a square root of minus its eigenvalue, is minus the decomposed matrix when all other
eigenvalues vanish. -/
theorem selected_gram (n k : Nat) (hk : k ≤ n) (B V : Nat → Nat → K) (lam s : Nat → K)
    (hspec : ∀ i j, i < n → j < n → ∑ a in Finset.range n, lam a * V a i * V a j = B i j)
    (hzero : ∀ a, a < n - k → lam a = 0)
    (hs : ∀ a, a < n → s a * s a = -lam a)
    (i j : Nat) (hi : i < n) (hj : j < n) :
    ∑ c in Finset.range k, (V (n - 1 - c) i * s (n - 1 - c)) * (V (n - 1 - c) j * s (n - 1 - c)) =
      -B i j := by
  have h1 : ∀ c ∈ Finset.range k,
      (V (n - 1 - c) i * s (n - 1 - c)) * (V (n - 1 - c) j * s (n - 1 - c)) =
      (fun c => -(lam (n - k + c) * V (n - k + c) i * V (n - k + c) j)) (k - 1 - c) := by
    intro c hc
    have hc' := Finset.mem_range.mp hc
    have e : n - k + (k - 1 - c) = n - 1 - c := by omega
    simp only [e]
    have := hs (n - 1 - c) (by omega)
    calc V (n - 1 - c) i * s (n - 1 - c) * (V (n - 1 - c) j * s (n - 1 - c))
        = (s (n - 1 - c) * s (n - 1 - c)) * V (n - 1 - c) i * V (n - 1 - c) j := by ring
      _ = -(lam (n - 1 - c) * V (n - 1 - c) i * V (n - 1 - c) j) := by rw [this]; ring
  rw [Finset.sum_congr rfl h1,
    Finset.sum_range_reflect (fun c => -(lam (n - k + c) * V (n - k + c) i * V (n - k + c) j)) k,
    ← hspec i j hi hj]
  have hsplit := Finset.sum_range_add (fun a => lam a * V a i * V a j) (n - k) k
  rw [Nat.sub_add_cancel hk] at hsplit
  have hz : ∑ a in Finset.range (n - k), lam a * V a i * V a j = 0 := by
    apply Finset.sum_eq_zero
    intro a ha
    rw [hzero a (Finset.mem_range.mp ha)]
    ring
  rw [hsplit, hz, zero_add, Finset.sum_neg_distrib]

theorem sum_sq_diff (k : Nat) (x y : Nat → K) :
    ∑ c in Finset.range k, (x c - y c) * (x c - y c) =
      ∑ c in Finset.range k, x c * x c + ∑ c in Finset.range k, y c * y c
        - 2 * ∑ c in Finset.range k, x c * y c := by
  have : ∀ c, (x c - y c) * (x c - y c) = x c * x c + y c * y c - 2 * (x c * y c) :=
    fun c => by ring
  simp only [this, Finset.sum_add_distrib, Finset.sum_sub_distrib, ← Finset.mul_sum]

theorem sqrt_mul_self_of (sq : K → K) (hsq : ∀ x, 0 ≤ x → 0 ≤ sq x ∧ sq x * sq x = x)
    (d : K) (hd : 0 ≤ d) : sq (d * d) = d := by
  obtain ⟨h1, h2⟩ := hsq (d * d) (mul_self_nonneg d)
  exact (mul_self_inj_of_nonneg h1 hd).mp h2

end

end MPAlg

namespace MPAlg
section Fidelity
variable {K : Type} [LinearOrderedField K]

/-- For a matrix of Euclidean distances between points in `k` dimensions, the centred matrix
is minus the Gram matrix of the centred points. -/
theorem cmdscaleB_gram (sq : K → K) (hsqrt : ∀ x, 0 ≤ x → 0 ≤ sq x ∧ sq x * sq x = x)
    (dist pts : Mat K) (k : Nat) (hsq : dist.rows = dist.cols) (hn : 0 < dist.cols)
    (hemb : ∀ i j, i < dist.cols → j < dist.cols →
      dist.get i j = sq (∑ c in Finset.range k,
        (pts.get i c - pts.get j c) * (pts.get i c - pts.get j c)))
    (i j : Nat) (hi : i < dist.cols) (hj : j < dist.cols) :
    (cmdscaleB dist).get i j =
      -∑ c in Finset.range k, centred dist.cols pts.get i c * centred dist.cols pts.get j c := by
  have hD : ∀ a b, a < dist.cols → b < dist.cols →
      dist.get a b * dist.get a b =
        ∑ c in Finset.range k, (pts.get a c - pts.get b c) * (pts.get a c - pts.get b c) := by
    intro a b ha hb
    rw [hemb a b ha hb]
    exact (hsqrt _ (Finset.sum_nonneg (fun c _ => mul_self_nonneg _))).2
  rw [cmdscaleB_entry dist hsq i j hi hj, ← center_gram dist.cols k hn pts.get i j, hD i j hi hj,
    Finset.sum_congr rfl (fun a ha => hD a j (Finset.mem_range.mp ha) hj),
    Finset.sum_congr rfl (fun b hb => hD i b hi (Finset.mem_range.mp hb)),
    Finset.sum_congr rfl (fun a ha => Finset.sum_congr rfl
      (fun b hb => hD a b (Finset.mem_range.mp ha) (Finset.mem_range.mp hb)))]

/-- C4. For `n ≥ 3` points in `k` dimensions (`1 ≤ k ≤ n`) with distance matrix `dist`, in
exact arithmetic with an exact square root, and given from the backend an exact
eigendecomposition of the centred matrix, stored as `cv::eigen` stores it (eigenvalues in
descending order, eigenvectors as rows in the same order), `cmdscale(dist, k)` returns rows
whose pairwise Euclidean distances equal the entries of `dist`. -/
theorem cmdscale_recovers_distances (be : Backend K) (dist pts : Mat K) (k : Nat)
    (heap : Heap K) (eigenvals eigenvecs : Option Nat)
    (hsq : dist.rows = dist.cols) (hn : 3 ≤ dist.rows) (hk1 : 1 ≤ k) (hk : k ≤ dist.rows)
    (hsqrt : ∀ x, 0 ≤ x → 0 ≤ be.sqrt x ∧ be.sqrt x * be.sqrt x = x)
    (hemb : ∀ i j, i < dist.rows → j < dist.rows →
      dist.get i j = be.sqrt (∑ c in Finset.range k,
        (pts.get i c - pts.get j c) * (pts.get i c - pts.get j c)))
    (heig : ExactEigen (cmdscaleB dist) (cvEigen be (cmdscaleB dist)).1
      (cvEigen be (cmdscaleB dist)).2)
    (hdesc : Descending (cvEigen be (cmdscaleB dist)).1) :
    ∃ out, cmdscale be dist (k : Int) heap eigenvals eigenvecs = .ok out ∧
      ∀ i j, i < dist.rows → j < dist.rows →
        be.sqrt (∑ c in Finset.range k,
          (out.ret.get i c - out.ret.get j c) * (out.ret.get i c - out.ret.get j c)) =
        dist.get i j := by
  have hsym : ∀ i j, i < dist.rows → j < dist.cols → dist.get i j = dist.get j i := by
    intro i j hi hj
    rw [hemb i j hi (by omega), hemb j i (by omega) hi]
    congr 1
    apply Finset.sum_congr rfl
    intro c _
    ring
  have hv : (s_CheckInpuErrorsMDS dist).1 = true := (mds_valid_iff dist).mpr ⟨hsq, hn, hsym⟩
  have h0 : be.sqrt 0 = 0 := by
    have := (hsqrt 0 le_rfl).2
    exact mul_self_eq_zero.mp this
  refine ⟨_, cmdscale_run be dist k heap eigenvals eigenvecs hv hk1 hk, ?_⟩
  intro i j hi hj
  simp only
  have hent := fun i c (hi : i < dist.rows) (hc : c < k) =>
    cmdscale_ret_entry be dist k hk hsq h0 i c hi hc
  rw [Finset.sum_congr rfl (fun c hc => by
    rw [hent i c hi (Finset.mem_range.mp hc), hent j c hj (Finset.mem_range.mp hc)])]
  generalize hE : cvEigen be (cmdscaleB dist) = E at heig hdesc
  have hBr : (cmdscaleB dist).rows = dist.rows := by rw [hsq]; rfl
  have hEr : E.1.rows = dist.rows := by rw [← hE, hsq]; rfl
  unfold ExactEigen at heig
  rw [hBr] at heig
  obtain ⟨hV, hEig⟩ := heig
  have hemb' : ∀ i j, i < dist.cols → j < dist.cols →
      dist.get i j = be.sqrt (∑ c in Finset.range k,
        (pts.get i c - pts.get j c) * (pts.get i c - pts.get j c)) :=
    fun i j hi hj => hemb i j (by omega) (by omega)
  have hB : ∀ i j, i < dist.rows → j < dist.rows → (cmdscaleB dist).get i j =
      -∑ c in Finset.range k,
        centred dist.cols pts.get i c * centred dist.cols pts.get j c :=
    fun i j hi hj => cmdscaleB_gram be.sqrt hsqrt dist pts k hsq (by omega) hemb' i j
      (by omega) (by omega)
  have hdesc' : ∀ a b, a ≤ b → b < dist.rows → E.1.get b 0 ≤ E.1.get a 0 := by
    intro a b hab hb
    exact hdesc a b hab (by rw [hEr]; exact hb)
  obtain ⟨hnonpos, hzero⟩ := eig_unselected_zero dist.rows k (cmdscaleB dist).get E.2.get
    (centred dist.cols pts.get) (fun a => E.1.get a 0) hB hV hEig hdesc'
  have hspec := spectral_sum dist.rows (cmdscaleB dist).get E.2.get (fun a => E.1.get a 0)
    hV hEig
  have hs : ∀ a, a < dist.rows →
      be.sqrt |E.1.get a 0| * be.sqrt |E.1.get a 0| = -E.1.get a 0 := by
    intro a ha
    rw [(hsqrt _ (abs_nonneg _)).2, abs_of_nonpos (hnonpos a ha)]
  have hG := selected_gram dist.rows k hk (cmdscaleB dist).get E.2.get (fun a => E.1.get a 0)
    (fun a => be.sqrt |E.1.get a 0|) hspec hzero hs
  rw [sum_sq_diff, hG i i hi hi, hG j j hj hj, hG i j hi hj, hB i i hi hi, hB j j hj hj,
    hB i j hi hj]
  have hfin : - -∑ c in Finset.range k,
        centred dist.cols pts.get i c * centred dist.cols pts.get i c +
      - -∑ c in Finset.range k,
        centred dist.cols pts.get j c * centred dist.cols pts.get j c -
      2 * - -∑ c in Finset.range k,
        centred dist.cols pts.get i c * centred dist.cols pts.get j c =
      dist.get i j * dist.get i j := by
    rw [neg_neg, neg_neg, neg_neg, ← sum_sq_diff, hemb i j hi hj,
      (hsqrt _ (Finset.sum_nonneg (fun c _ => mul_self_nonneg _))).2]
    apply Finset.sum_congr rfl
    intro c _
    unfold centred
    ring
  rw [hfin]
  have hd : 0 ≤ dist.get i j := by
    rw [hemb i j hi hj]
    exact (hsqrt _ (Finset.sum_nonneg (fun c _ => mul_self_nonneg _))).1
  exact sqrt_mul_self_of be.sqrt hsqrt _ hd

end Fidelity
end MPAlg

namespace MPAlg
section RectReal
variable {K : Type} [LinearOrderedField K]

set_option maxHeartbeats 2000000 in
/-- The rectangle's distance matrix is the matrix of Euclidean distances of its corners, for
a square root that is right on 0, 9, 16 and 25. -/
theorem rect_embed (sq : K → K) (h0 : sq 0 = 0) (h9 : sq 9 = 3) (h16 : sq 16 = 4)
    (h25 : sq 25 = 5) (i j : Nat) (hi : i < 4) (hj : j < 4) :
    (rectDist K).get i j = sq (∑ c in Finset.range 2,
      ((rectPts K).get i c - (rectPts K).get j c) * ((rectPts K).get i c - (rectPts K).get j c)) := by
  interval_cases i <;> interval_cases j <;>
    simp [rectDist, rectPts, Mat.ofRows, Finset.sum_range_succ] <;> norm_num [h0, h9, h16, h25]

end RectReal

theorem real_sqrt_table :
    Real.sqrt 0 = 0 ∧ Real.sqrt 9 = 3 ∧ Real.sqrt 16 = 4 ∧ Real.sqrt 25 = 5 := by
  refine ⟨Real.sqrt_zero, ?_, ?_, ?_⟩
  · rw [Real.sqrt_eq_iff_mul_self_eq] <;> norm_num
  · rw [Real.sqrt_eq_iff_mul_self_eq] <;> norm_num
  · rw [Real.sqrt_eq_iff_mul_self_eq] <;> norm_num

theorem real_sqrt_exact (x : ℝ) (hx : 0 ≤ x) : 0 ≤ Real.sqrt x ∧ Real.sqrt x * Real.sqrt x = x :=
  ⟨Real.sqrt_nonneg x, Real.mul_self_sqrt hx⟩

/-- The corners of a 3 x 4 rectangle, `k = 2`, the real square root and the exact
eigendecomposition 0, 0, -9, -16 of the centred matrix: the returned rows have the distances
of `rectDist`. -/
theorem cmdscale_recovers_distances_witness :
    ExactEigen (cmdscaleB (rectDist ℝ))
      (cvEigen (tableBackend Real.sqrt (rectEvalsDesc ℝ) (rectEvecsDesc ℝ))
        (cmdscaleB (rectDist ℝ))).1
      (cvEigen (tableBackend Real.sqrt (rectEvalsDesc ℝ) (rectEvecsDesc ℝ))
        (cmdscaleB (rectDist ℝ))).2 ∧
    Descending (cvEigen (tableBackend Real.sqrt (rectEvalsDesc ℝ) (rectEvecsDesc ℝ))
      (cmdscaleB (rectDist ℝ))).1 ∧
    ∃ out, cmdscale (tableBackend Real.sqrt (rectEvalsDesc ℝ) (rectEvecsDesc ℝ)) (rectDist ℝ)
        ((2 : Nat) : Int) ⟨[]⟩ none none = .ok out ∧
      ∀ i j, i < 4 → j < 4 →
        Real.sqrt (∑ c in Finset.range 2,
          (out.ret.get i c - out.ret.get j c) * (out.ret.get i c - out.ret.get j c)) =
        (rectDist ℝ).get i j := by
  have hE := cvEigen_table_rect Real.sqrt (rectEvalsDesc ℝ) (rectEvecsDesc ℝ) rfl rfl rfl rfl
  have h1 : ExactEigen (cmdscaleB (rectDist ℝ))
      (cvEigen (tableBackend Real.sqrt (rectEvalsDesc ℝ) (rectEvecsDesc ℝ))
        (cmdscaleB (rectDist ℝ))).1
      (cvEigen (tableBackend Real.sqrt (rectEvalsDesc ℝ) (rectEvecsDesc ℝ))
        (cmdscaleB (rectDist ℝ))).2 := by
    rw [hE]; exact rect_exactEigen_desc
  have h2 : Descending (cvEigen (tableBackend Real.sqrt (rectEvalsDesc ℝ) (rectEvecsDesc ℝ))
      (cmdscaleB (rectDist ℝ))).1 := by
    rw [hE]; exact rect_descending
  exact ⟨h1, h2,
    cmdscale_recovers_distances (tableBackend Real.sqrt (rectEvalsDesc ℝ) (rectEvecsDesc ℝ))
      (rectDist ℝ) (rectPts ℝ) 2 ⟨[]⟩ none none rfl (Nat.le_of_ble_eq_true rfl)
      (Nat.le_of_ble_eq_true rfl) (Nat.le_of_ble_eq_true rfl) real_sqrt_exact
      (fun i j hi hj => rect_embed Real.sqrt real_sqrt_table.1 real_sqrt_table.2.1
        real_sqrt_table.2.2.1 real_sqrt_table.2.2.2 i j hi hj) h1 h2⟩

/-- The rectangle with the descending decomposition 0, 0, -9, -16 and `k = 2`. -/
theorem cmdscale_selects_last_rows_witness :
    ∃ out, cmdscale (tableBackend Real.sqrt (rectEvalsDesc ℝ) (rectEvecsDesc ℝ)) (rectDist ℝ)
        ((2 : Nat) : Int) ⟨[]⟩ none none = .ok out ∧
      (∀ i c, i < (rectDist ℝ).rows → c < 2 →
        out.ret.get i c =
          (cvEigen (tableBackend Real.sqrt (rectEvalsDesc ℝ) (rectEvecsDesc ℝ))
            (cmdscaleB (rectDist ℝ))).2.get ((rectDist ℝ).rows - 1 - c) i *
            (tableBackend Real.sqrt (rectEvalsDesc ℝ) (rectEvecsDesc ℝ)).sqrt
              |(cvEigen (tableBackend Real.sqrt (rectEvalsDesc ℝ) (rectEvecsDesc ℝ))
                (cmdscaleB (rectDist ℝ))).1.get ((rectDist ℝ).rows - 1 - c) 0|) ∧
      (Ascending (cvEigen (tableBackend Real.sqrt (rectEvalsDesc ℝ) (rectEvecsDesc ℝ))
          (cmdscaleB (rectDist ℝ))).1 →
        SelectsLargest (cvEigen (tableBackend Real.sqrt (rectEvalsDesc ℝ) (rectEvecsDesc ℝ))
          (cmdscaleB (rectDist ℝ))).1 2) ∧
      (Descending (cvEigen (tableBackend Real.sqrt (rectEvalsDesc ℝ) (rectEvecsDesc ℝ))
          (cmdscaleB (rectDist ℝ))).1 →
        SelectsSmallest (cvEigen (tableBackend Real.sqrt (rectEvalsDesc ℝ) (rectEvecsDesc ℝ))
          (cmdscaleB (rectDist ℝ))).1 2) :=
  cmdscale_selects_last_rows (tableBackend Real.sqrt (rectEvalsDesc ℝ) (rectEvecsDesc ℝ))
    (rectDist ℝ) 2 ⟨[]⟩ none none rectDist_valid (Nat.le_of_ble_eq_true rfl)
    (Nat.le_of_ble_eq_true rfl) Real.sqrt_zero

/-- C10 as stated fails for an exact eigendecomposition stored in descending order, the order
`cv::eigen` documents: for the corners of a 3 x 4 rectangle and `k = 2` the eigenvalues are
0, 0, -9, -16, the first output column is the eigenvector of -16 scaled by 4, the second the
eigenvector of -9 scaled by 3, and the two eigenvalues 0 that are left out are larger. -/
theorem cmdscale_selects_largest_counterexample :
    (s_CheckInpuErrorsMDS (rectDist ℝ)).1 = true ∧
    cvEigen (tableBackend Real.sqrt (rectEvalsDesc ℝ) (rectEvecsDesc ℝ))
      (cmdscaleB (rectDist ℝ)) = (rectEvalsDesc ℝ, rectEvecsDesc ℝ) ∧
    ExactEigen (cmdscaleB (rectDist ℝ)) (rectEvalsDesc ℝ) (rectEvecsDesc ℝ) ∧
    (∃ out, cmdscale (tableBackend Real.sqrt (rectEvalsDesc ℝ) (rectEvecsDesc ℝ)) (rectDist ℝ)
        2 ⟨[]⟩ none none = .ok out ∧
      (∀ i, i < 4 → out.ret.get i 0 = (rectEvecsDesc ℝ).get 3 i * 4) ∧
      (∀ i, i < 4 → out.ret.get i 1 = (rectEvecsDesc ℝ).get 2 i * 3)) ∧
    (rectEvalsDesc ℝ).get 3 0 = -16 ∧ (rectEvalsDesc ℝ).get 2 0 = -9 ∧
    (rectEvalsDesc ℝ).get 0 0 = 0 ∧
    ¬ SelectsLargest (cvEigen (tableBackend Real.sqrt (rectEvalsDesc ℝ) (rectEvecsDesc ℝ))
      (cmdscaleB (rectDist ℝ))).1 2 := by
  have hE := cvEigen_table_rect Real.sqrt (rectEvalsDesc ℝ) (rectEvecsDesc ℝ) rfl rfl rfl rfl
  have h3 : (rectEvalsDesc ℝ).get 3 0 = -16 := by simp [rectEvalsDesc, Mat.ofRows]
  have h2 : (rectEvalsDesc ℝ).get 2 0 = -9 := by simp [rectEvalsDesc, Mat.ofRows]
  have h0 : (rectEvalsDesc ℝ).get 0 0 = 0 := by simp [rectEvalsDesc, Mat.ofRows]
  obtain ⟨out, hout, hent⟩ := cmdscale_ok_entry
    (tableBackend Real.sqrt (rectEvalsDesc ℝ) (rectEvecsDesc ℝ)) (rectDist ℝ) 2 ⟨[]⟩ none none
    rectDist_valid (Nat.le_of_ble_eq_true rfl) (Nat.le_of_ble_eq_true rfl) Real.sqrt_zero
  have h4 : (rectDist ℝ).rows = 4 := rfl
  rw [hE, h4] at hent
  refine ⟨rectDist_valid, hE, rect_exactEigen_desc, ⟨out, hout, ?_, ?_⟩, h3, h2, h0, ?_⟩
  · intro i hi
    rw [hent i 0 hi (by decide)]
    simp only [Nat.sub_zero, Nat.add_one_sub_one, h3, tableBackend]
    rw [show |(-16 : ℝ)| = 16 by norm_num, real_sqrt_table.2.2.1]
  · intro i hi
    rw [hent i 1 hi (by decide)]
    simp only [Nat.add_one_sub_one, h2, tableBackend]
    rw [show |(-9 : ℝ)| = 9 by norm_num, real_sqrt_table.2.1]
  · rw [hE]
    intro h
    have := h.1 0 0 (by decide) (by decide)
    have h43 : (rectEvalsDesc ℝ).rows - 1 - 0 = 3 := rfl
    rw [h43, h0, h3] at this
    norm_num at this

end MPAlg

namespace MPAlg

/-! ## Closed forms of the per-point loops -/

section PointForms
variable {K : Type} [LinearOrderedField K]

/-- Entries and sum of the weights. -/
theorem pointAlpha_get (be : Backend K) (Xs : Mat K) (cpn : Nat) (x : Mat K) (j : Nat)
    (hj : j < cpn) :
    (pointAlpha be Xs cpn x).get 0 j = 1 / max (cvNorm be (Xs.row j) x) tol := by
  unfold pointAlpha
  rw [lampAlpha_eq be Xs cpn x (Mat.zeros 1 cpn) rfl rfl]
  simp [hj]

theorem pointAlpha_shape (be : Backend K) (Xs : Mat K) (cpn : Nat) (x : Mat K) :
    (pointAlpha be Xs cpn x).rows = 1 ∧ (pointAlpha be Xs cpn x).cols = cpn := by
  unfold pointAlpha
  rw [lampAlpha_eq be Xs cpn x (Mat.zeros 1 cpn) rfl rfl]
  exact ⟨rfl, rfl⟩

theorem pointAlpha_sum (be : Backend K) (Xs : Mat K) (cpn : Nat) (x : Mat K) :
    (pointAlpha be Xs cpn x).sum =
      ∑ j in Finset.range cpn, (pointAlpha be Xs cpn x).get 0 j := by
  unfold Mat.sum
  rw [(pointAlpha_shape be Xs cpn x).1, (pointAlpha_shape be Xs cpn x).2]
  simp

end PointForms
end MPAlg

namespace MPAlg

section PointClaims
variable {K : Type} [LinearOrderedField K]

end PointClaims
end MPAlg

namespace MPAlg

section Shift
variable {K : Type} [LinearOrderedField K]

end Shift
end MPAlg

namespace MPAlg

section Centring
variable {K : Type} [LinearOrderedField K]

theorem get_sq_map (dist : Mat K) (a b : Nat) :
    (dist.map (fun x => x * x)).get a b = dist.get a b * dist.get a b := by
  by_cases h : a < dist.rows ∧ b < dist.cols
  · simp [Mat.map, h]
  · rw [Mat.get_eq_zero dist a b h, Mat.get_eq_zero _ a b (by simpa using h), zero_mul]

/-- C11. For every `n x n` matrix `dist`, the matrix handed to the eigensolver is
`((J * D2) * J) * 0.5` with `J = eye - ones * (1 / n)` and `D2` the entrywise square of
`dist`, and its entry `(i, j)` is `0.5 * (D2[i][j] - rowmean_i - colmean_j + mean)`, with
positive sign. -/
theorem cmdscaleB_double_centred (dist : Mat K) (hsq : dist.rows = dist.cols) (i j : Nat)
    (hi : i < dist.cols) (hj : j < dist.cols) :
    cmdscaleB dist =
      ((((Mat.eye dist.cols dist.cols).sub
          ((Mat.ones dist.cols dist.cols).scale (1 / (dist.cols : K)))).mul
        (dist.map (fun x => x * x))).mul
        ((Mat.eye dist.cols dist.cols).sub
          ((Mat.ones dist.cols dist.cols).scale (1 / (dist.cols : K))))).scale (1 / 2) ∧
    (cmdscaleB dist).get i j =
      1 / 2 * ((dist.map (fun x => x * x)).get i j
        - 1 / (dist.cols : K) *
            ∑ b in Finset.range dist.cols, (dist.map (fun x => x * x)).get i b
        - 1 / (dist.cols : K) *
            ∑ a in Finset.range dist.cols, (dist.map (fun x => x * x)).get a j
        + 1 / (dist.cols : K) * (1 / (dist.cols : K)) *
            ∑ a in Finset.range dist.cols, ∑ b in Finset.range dist.cols,
              (dist.map (fun x => x * x)).get a b) := by
  refine ⟨rfl, ?_⟩
  rw [cmdscaleB_entry dist hsq i j hi hj]
  simp only [get_sq_map]
  ring

/-- Row and column sums of the centred matrix vanish. -/
theorem cmdscaleB_row_sum (dist : Mat K) (hsq : dist.rows = dist.cols) (hn : 0 < dist.cols)
    (i : Nat) (hi : i < dist.cols) :
    ∑ j in Finset.range dist.cols, (cmdscaleB dist).get i j = 0 := by
  have hn' : (dist.cols : K) ≠ 0 := Nat.cast_ne_zero.mpr (by omega)
  rw [Finset.sum_congr rfl
    (fun j hj => cmdscaleB_entry dist hsq i j hi (Finset.mem_range.mp hj))]
  simp only [← Finset.mul_sum, Finset.sum_add_distrib, Finset.sum_sub_distrib,
    Finset.sum_const, Finset.card_range, nsmul_eq_mul]
  rw [Finset.sum_comm]
  field_simp
  ring

theorem cmdscaleB_col_sum (dist : Mat K) (hsq : dist.rows = dist.cols) (hn : 0 < dist.cols)
    (j : Nat) (hj : j < dist.cols) :
    ∑ i in Finset.range dist.cols, (cmdscaleB dist).get i j = 0 := by
  have hn' : (dist.cols : K) ≠ 0 := Nat.cast_ne_zero.mpr (by omega)
  rw [Finset.sum_congr rfl
    (fun i hi => cmdscaleB_entry dist hsq i j (Finset.mem_range.mp hi) hj)]
  simp only [← Finset.mul_sum, Finset.sum_add_distrib, Finset.sum_sub_distrib,
    Finset.sum_const, Finset.card_range, nsmul_eq_mul]
  field_simp
  ring

/-- C18. For every `dist` accepted by validation, the centred matrix handed to the
eigensolver is symmetric, and each of its rows and each of its columns sums to zero. -/
theorem cmdscaleB_symmetric_centred (dist : Mat K)
    (hv : (s_CheckInpuErrorsMDS dist).1 = true) :
    (cmdscaleB dist).rows = dist.rows ∧ (cmdscaleB dist).cols = dist.rows ∧
    (∀ i j, i < dist.rows → j < dist.rows →
      (cmdscaleB dist).get i j = (cmdscaleB dist).get j i) ∧
    (∀ i, i < dist.rows → ∑ j in Finset.range dist.rows, (cmdscaleB dist).get i j = 0) ∧
    (∀ j, j < dist.rows → ∑ i in Finset.range dist.rows, (cmdscaleB dist).get i j = 0) := by
  obtain ⟨hsq, hn, hsym⟩ := (mds_valid_iff dist).mp hv
  refine ⟨by rw [hsq]; rfl, by rw [hsq]; rfl, ?_, ?_, ?_⟩
  · intro i j hi hj
    rw [cmdscaleB_entry dist hsq i j (by omega) (by omega),
      cmdscaleB_entry dist hsq j i (by omega) (by omega), hsym i j hi (by omega)]
    have h1 : ∑ a in Finset.range dist.cols, dist.get a j * dist.get a j =
        ∑ b in Finset.range dist.cols, dist.get j b * dist.get j b := by
      apply Finset.sum_congr rfl
      intro a ha
      rw [hsym a j (by have := Finset.mem_range.mp ha; omega) (by omega)]
    have h2 : ∑ b in Finset.range dist.cols, dist.get i b * dist.get i b =
        ∑ a in Finset.range dist.cols, dist.get a i * dist.get a i := by
      apply Finset.sum_congr rfl
      intro b hb
      rw [hsym i b hi (Finset.mem_range.mp hb)]
    rw [h1, h2]
    ring
  · intro i hi
    rw [hsq]
    exact cmdscaleB_row_sum dist hsq (by omega) i (by omega)
  · intro j hj
    rw [hsq]
    exact cmdscaleB_col_sum dist hsq (by omega) j (by omega)

end Centring
end MPAlg

namespace MPAlg

/-- The rectangle distances, entry `(0, 1)` of the centred matrix. -/
theorem cmdscaleB_double_centred_witness :
    (rectDist ℚ).rows = (rectDist ℚ).cols ∧ 0 < (rectDist ℚ).cols ∧ 1 < (rectDist ℚ).cols ∧
    (cmdscaleB (rectDist ℚ)).get 0 1 =
      1 / 2 * (((rectDist ℚ).map (fun x => x * x)).get 0 1
        - 1 / ((rectDist ℚ).cols : ℚ) *
            ∑ b in Finset.range (rectDist ℚ).cols, ((rectDist ℚ).map (fun x => x * x)).get 0 b
        - 1 / ((rectDist ℚ).cols : ℚ) *
            ∑ a in Finset.range (rectDist ℚ).cols, ((rectDist ℚ).map (fun x => x * x)).get a 1
        + 1 / ((rectDist ℚ).cols : ℚ) * (1 / ((rectDist ℚ).cols : ℚ)) *
            ∑ a in Finset.range (rectDist ℚ).cols, ∑ b in Finset.range (rectDist ℚ).cols,
              ((rectDist ℚ).map (fun x => x * x)).get a b) :=
  ⟨rfl, by decide, by decide,
    (cmdscaleB_double_centred (rectDist ℚ) rfl 0 1 (by decide) (by decide)).2⟩

/-- The rectangle distances: the centred matrix is symmetric with vanishing row and column
sums. -/
theorem cmdscaleB_symmetric_centred_witness :
    (s_CheckInpuErrorsMDS (rectDist ℚ)).1 = true ∧
    (∀ i j, i < (rectDist ℚ).rows → j < (rectDist ℚ).rows →
      (cmdscaleB (rectDist ℚ)).get i j = (cmdscaleB (rectDist ℚ)).get j i) ∧
    (∀ i, i < (rectDist ℚ).rows →
      ∑ j in Finset.range (rectDist ℚ).rows, (cmdscaleB (rectDist ℚ)).get i j = 0) ∧
    (∀ j, j < (rectDist ℚ).rows →
      ∑ i in Finset.range (rectDist ℚ).rows, (cmdscaleB (rectDist ℚ)).get i j = 0) :=
  ⟨rectDist_valid, (cmdscaleB_symmetric_centred (rectDist ℚ) rectDist_valid).2.2⟩

end MPAlg

namespace MPAlg

section Sentinel
variable {K : Type} [LinearOrderedField K]

/-- C17. Validation looks at the number of control indices only, never at their values: it
accepts the points of `test_lamp` together with a negative control index, with a control index
equal to the number of rows, and with a repeated control index.  With an index outside
`[0, rows(X))` the first indexed write `proj_idx[cp_index[i]] = -1` is out of bounds. -/
theorem lamp_validation_ignores_indices :
    (∀ (X : Mat K) (cp cp' : List Int) (Ys : Mat K), cp'.length = cp.length →
      s_CheckInputErrorsLAMP X cp' Ys = s_CheckInputErrorsLAMP X cp Ys) ∧
    ((s_CheckInputErrorsLAMP (testX K) [-1, 5, 9] (testYs K)).1 = true ∧
      (∃ c ∈ ([-1, 5, 9] : List Int), c < 0) ∧
      ∀ be : Backend K,
        lamp be (testX K) [-1, 5, 9] (testYs K) = .error CvError.indexOutOfRange) ∧
    ((s_CheckInputErrorsLAMP (testX K) [1, 5, 10] (testYs K)).1 = true ∧
      (∃ c ∈ ([1, 5, 10] : List Int), ((testX K).rows : Int) ≤ c) ∧
      ∀ be : Backend K,
        lamp be (testX K) [1, 5, 10] (testYs K) = .error CvError.indexOutOfRange) ∧
    ((s_CheckInputErrorsLAMP (testX K) [1, 1, 5] (testYs K)).1 = true ∧
      ¬ ([1, 1, 5] : List Int).Nodup) := by
  refine ⟨?_, ⟨rfl, ⟨-1, by decide, by decide⟩, ?_⟩, ⟨rfl, ⟨10, by decide, le_of_eq rfl⟩, ?_⟩,
    ⟨rfl, by decide⟩⟩
  · intro X cp cp' Ys h
    unfold s_CheckInputErrorsLAMP
    rw [h]
  · intro be
    have hv : (s_CheckInputErrorsLAMP (testX K) [-1, 5, 9] (testYs K)).1 = true := rfl
    unfold lamp
    rw [if_neg (by rw [hv]; simp)]
    rfl
  · intro be
    have hv : (s_CheckInputErrorsLAMP (testX K) [1, 5, 10] (testYs K)).1 = true := rfl
    unfold lamp
    rw [if_neg (by rw [hv]; simp)]
    rfl

end Sentinel
end MPAlg

namespace MPAlg

section Procrustes
variable {K : Type} [LinearOrderedField K]

end Procrustes
end MPAlg

namespace MPAlg

section OrthoMap
variable {K : Type} [LinearOrderedField K]

end OrthoMap
end MPAlg

namespace MPAlg

section ProcrustesMap
variable {K : Type} [LinearOrderedField K]

end ProcrustesMap
end MPAlg

namespace MPAlg

section ProcrustesClaim
variable {K : Type} [LinearOrderedField K]

end ProcrustesClaim
end MPAlg

namespace MPAlg

section ProcrustesExample
variable {K : Type} [LinearOrderedField K]

/-- The entries of the three example points. -/
theorem procX_get :
    (procX K).get 0 0 = 1 ∧ (procX K).get 0 1 = 0 ∧ (procX K).get 1 0 = -1 ∧
    (procX K).get 1 1 = 0 ∧ (procX K).get 2 0 = 0 ∧ (procX K).get 2 1 = 0 := by
  refine ⟨?_, ?_, ?_, ?_, ?_, ?_⟩ <;> simp [procX, Mat.ofRows]

/-- The control rows of the example are its first two points. -/
theorem procXs_get (j l : Nat) (hj : j < 2) :
    (controlRows (procX K) procIdx).get j l = (procX K).get j l := by
  by_cases hl : l < 2
  · unfold controlRows
    rw [Mat.get_ofFn, if_pos ⟨hj, hl⟩]
    interval_cases j <;> rfl
  · rw [Mat.get_eq_zero _ j l (fun h => hl h.2), Mat.get_eq_zero _ j l (fun h => hl h.2)]

/-- The weights of the example: both control points are at distance 1 from the origin. -/
theorem proc_alpha (be : Backend K) (hs1 : be.sqrt 1 = 1) (j : Nat) (hj : j < 2) :
    (pointAlpha be (controlRows (procX K) procIdx) procIdx.length ((procX K).row 2)).get 0 j
      = 1 := by
  obtain ⟨h00, h01, h10, h11, h20, h21⟩ := procX_get (K := K)
  rw [pointAlpha_get be _ procIdx.length _ j hj]
  have hn : cvNorm be ((controlRows (procX K) procIdx).row j) ((procX K).row 2) = 1 := by
    unfold cvNorm
    simp only [Mat.row_rows, Mat.row_cols, Finset.sum_range_one, Mat.get_row]
    have hc : (controlRows (procX K) procIdx).cols = 2 := rfl
    rw [hc]
    simp only [Finset.sum_range_succ, Finset.sum_range_zero, procXs_get j _ hj, h20, h21]
    interval_cases j
    · rw [h00, h01]; norm_num; exact hs1
    · rw [h10, h11]; norm_num; exact hs1
  rw [hn]
  unfold tol
  rw [max_eq_left (by norm_num)]
  norm_num

/-- The sum of the weights of the example. -/
theorem proc_alpha_sum (be : Backend K) (hs1 : be.sqrt 1 = 1) :
    (pointAlpha be (controlRows (procX K) procIdx) procIdx.length ((procX K).row 2)).sum
      = 2 := by
  rw [pointAlpha_sum]
  have h2 : procIdx.length = 2 := rfl
  rw [h2, Finset.sum_range_succ, Finset.sum_range_succ, Finset.sum_range_zero]
  have h0 := proc_alpha (K := K) be hs1 0 (by norm_num)
  have h1 := proc_alpha (K := K) be hs1 1 (by norm_num)
  rw [h2] at h0 h1
  rw [h0, h1]
  norm_num

end ProcrustesExample
end MPAlg

namespace MPAlg

section ProcrustesExample2
variable {K : Type} [LinearOrderedField K]

end ProcrustesExample2
end MPAlg

namespace MPAlg

section ProcrustesCounterexample
variable {K : Type} [LinearOrderedField K]

end ProcrustesCounterexample
end MPAlg

namespace MPAlg

end MPAlg
